import Mathlib

/-!
# Verification of the SmartFileSorter core (src/smart_file_sorter.py)

A shallow embedding of the backend of `smart_file_sorter.py`: the
classifier (`detect_group`), the collision-free destination resolver
(`unique_dest`, `safe_copy`, `safe_move`), and the three worker loops
(`sort_worker`, `duplicate_scan_worker`, `face_grouping_worker`).

Modelling conventions:
* A file is a `FileRec`: the attributes the Python code reads from the
  outside world (path pieces, guessed MIME type, `stat` result, `sha256`
  digest, EXIF date, whether the copy/move call succeeds).  `stat` or
  `sha256` raising an `OSError` is modelled by `none`.
* The filesystem, as consulted by `Path.exists`, is a list of path
  strings threaded through the operations.
* Progress and log callbacks are modelled as an emitted event list `Ev`;
  progress fractions are rationals.
* The cancellation token is a function `Nat → Bool` giving the value of
  `stop_event.is_set()` at its n-th poll (the workers poll once per unit
  of work).
* Python's `str.lower`, `str.startswith` and decimal formatting of
  integers are modelled by structurally recursive Lean functions
  (`strLower`, `strStartsWith`, `natRepr`) so that they compute by
  kernel reduction.
-/

/-- Python `str.lower` (the extension tables are pure ASCII). -/
def strLower (s : String) : String := ⟨s.data.map Char.toLower⟩

/-- Python `str.startswith`. -/
def strStartsWith (s pre : String) : Bool := pre.data.isPrefixOf s.data

/-- Decimal digits of `n`, least significant first, with explicit fuel
(structurally recursive so that it computes by kernel reduction). -/
def natDigitsAux : Nat → Nat → List Char
  | 0, _ => []
  | fuel+1, n => if n = 0 then [] else Nat.digitChar (n % 10) :: natDigitsAux fuel (n / 10)

/-- Decimal rendering of a natural number, as Python's `str`/f-string
formatting of a nonnegative `int` produces it. -/
def natRepr (n : Nat) : String := if n = 0 then "0" else ⟨(natDigitsAux n n).reverse⟩

/-- The `EXTENSIONS` table of the source, in source order. -/
def EXTENSIONS : List (String × List String) :=
  [("Photos", [".jpg", ".jpeg", ".png", ".gif", ".bmp", ".tiff", ".webp", ".heic"]),
   ("Videos", [".mp4", ".mkv", ".mov", ".avi", ".wmv", ".flv", ".webm"]),
   ("Audio", [".mp3", ".wav", ".aac", ".flac", ".ogg", ".m4a"]),
   ("Documents", [".doc", ".docx", ".odt", ".rtf", ".txt"]),
   ("PDFs", [".pdf"]),
   ("Presentations", [".ppt", ".pptx", ".key"]),
   ("Spreadsheets", [".xls", ".xlsx", ".csv", ".ods"]),
   ("Archives", [".zip", ".rar", ".7z", ".tar", ".gz", ".bz2"]),
   ("Code", [".py", ".java", ".c", ".cpp", ".js", ".ts", ".html", ".css", ".tsx", ".jsx"])]

/-- `EXT_TO_GROUP`: the extension-to-category dictionary built from
`EXTENSIONS` (the extensions are pairwise distinct across groups, so the
dictionary is order-independent; we keep source order). -/
def EXT_TO_GROUP : List (String × String) :=
  EXTENSIONS.foldl (fun acc gs => acc ++ gs.2.map (fun e => (e, gs.1))) []

/-- The ordered `MIME_MAP` list of the source. -/
def MIME_MAP : List (String × String) :=
  [("image", "Photos"), ("video", "Videos"), ("audio", "Audio"),
   ("application/pdf", "PDFs"), ("text", "Documents")]

/-- The `DEFAULT_FOLDERS` list of the source. -/
def DEFAULT_FOLDERS : List String :=
  ["Photos", "Videos", "Audio", "Documents", "PDFs", "Presentations",
   "Spreadsheets", "Archives", "Code", "Others"]

/-- Python `dict` lookup on an association list with distinct keys. -/
def lookupStr {α : Type} : List (String × α) → String → Option α
  | [], _ => none
  | kv :: rest, k => if kv.1 = k then some kv.2 else lookupStr rest k

/-- The body of `detect_group` for a non-directory path: extension
lookup, then MIME-prefix match, then the (unreachable) literal
`application/pdf` re-check, then `"Others"`.  `sfx` is `path.suffix`
and `mime` the result of `mimetypes.guess_type`. -/
def classifyFile (sfx : String) (mime : Option String) : String :=
  let ext := strLower sfx
  match lookupStr EXT_TO_GROUP ext with
  | some g => g
  | none =>
    match mime with
    | some m =>
      match MIME_MAP.find? (fun km => strStartsWith m km.1) with
      | some km => km.2
      | none => if m = "application/pdf" then "PDFs" else "Others"
    | none => "Others"

/-- `detect_group`: `None` for directories, otherwise `classifyFile`. -/
def detect_group (isDir : Bool) (sfx : String) (mime : Option String) : Option String :=
  if isDir then none else some (classifyFile sfx mime)

/-- The classifier exactly as §4.1/§8 of the specification word it:
(a) exact lowercase extension lookup; (b) first matching (MIME-prefix,
category) rule; (c) fallback `Others`.  Used only to compare the code's
`classifyFile` against the specification text. -/
def classifySpec (sfx : String) (mime : Option String) : String :=
  match lookupStr EXT_TO_GROUP (strLower sfx) with
  | some g => g
  | none =>
    match mime with
    | some m => ((MIME_MAP.find? (fun km => strStartsWith m km.1)).map (fun km => km.2)).getD "Others"
    | none => "Others"

/-- The candidate path `parent / f"{stem} ({i}){suffix}"` that the
`unique_dest` loop tries at counter value `i`. -/
def candPath (parent stem sfx : String) (i : Nat) : String :=
  parent ++ "/" ++ stem ++ " (" ++ natRepr i ++ ")" ++ sfx

theorem mem_le_foldr_max : ∀ (l : List Nat), ∀ x ∈ l, x ≤ l.foldr max 0
  | [], x, hx => by cases hx
  | a :: l, x, hx => by
    rcases List.mem_cons.mp hx with h | h
    · subst h; exact le_max_left _ _
    · exact (mem_le_foldr_max l x h).trans (le_max_right _ _)

theorem digits_len_lb : ∀ (k : Nat), ∀ (fuel n : Nat), 10 ^ k ≤ n → n ≤ fuel →
    k + 1 ≤ (natDigitsAux fuel n).length := by
  intro k
  induction k with
  | zero =>
    intro fuel n hn hfuel
    have h1 : 1 ≤ n := by simpa using hn
    cases fuel with
    | zero => omega
    | succ fuel =>
      simp only [natDigitsAux]
      rw [if_neg (by omega : ¬ n = 0)]
      simp
  | succ k ih =>
    intro fuel n hn hfuel
    have h10 : 10 ≤ n := le_trans (by calc 10 = 10 ^ 1 := (pow_one 10).symm
                                         _ ≤ 10 ^ (k + 1) := Nat.pow_le_pow_right (by omega) (by omega)) hn
    cases fuel with
    | zero => omega
    | succ fuel =>
      simp only [natDigitsAux]
      rw [if_neg (by omega : ¬ n = 0)]
      simp only [List.length_cons]
      have hdiv : 10 ^ k ≤ n / 10 := by
        rw [Nat.le_div_iff_mul_le (by omega)]
        calc 10 ^ k * 10 = 10 ^ (k + 1) := (pow_succ 10 k).symm
          _ ≤ n := hn
      have hlt : n / 10 < n := Nat.div_lt_self (by omega) (by omega)
      have := ih fuel (n / 10) hdiv (by omega)
      omega

theorem natRepr_length_lb (L : Nat) : L + 1 ≤ (natRepr (10 ^ L)).length := by
  have h1 : 1 ≤ 10 ^ L := Nat.one_le_pow _ _ (by omega)
  have : (natRepr (10 ^ L)).length = (natDigitsAux (10 ^ L) (10 ^ L)).length := by
    simp [natRepr, (by omega : ¬ 10 ^ L = 0)]
  rw [this]
  exact digits_len_lb L _ _ le_rfl le_rfl

/-- The filesystem is finite, so some candidate `f"{stem} ({i}){suffix}"`
is free: a candidate whose decimal counter has more digits than any
existing path has characters cannot collide.  This is the termination
argument for the `while True` loop of `unique_dest`. -/
theorem exists_free (fs : List String) (parent stem sfx : String) :
    ∃ j : Nat, candPath parent stem sfx (j + 1) ∉ fs := by
  set L := (fs.map String.length).foldr max 0 with hL
  have h1 : 1 ≤ 10 ^ L := Nat.one_le_pow _ _ (by omega)
  refine ⟨10 ^ L - 1, fun hmem => ?_⟩
  rw [(by omega : 10 ^ L - 1 + 1 = 10 ^ L)] at hmem
  have hcand : L + 1 ≤ (candPath parent stem sfx (10 ^ L)).length := by
    have := natRepr_length_lb L
    simp only [candPath, String.length_append]
    omega
  have hmax : (candPath parent stem sfx (10 ^ L)).length ≤ L :=
    mem_le_foldr_max _ _ (List.mem_map_of_mem String.length hmem)
  omega

/-- `unique_dest`: return `parent / (stem ++ suffix)` unchanged if that
path does not exist, else the first candidate `f"{stem} ({i}){suffix}"`
(`i = 1, 2, ...`) that does not exist. -/
def unique_dest (fs : List String) (parent stem sfx : String) : String :=
  let dest := parent ++ "/" ++ stem ++ sfx
  if dest ∈ fs then candPath parent stem sfx (Nat.find (exists_free fs parent stem sfx) + 1)
  else dest

/-- `Path.mkdir(exist_ok=True)`: record the directory path as existing. -/
def mkdirP (fs : List String) (dir : String) : List String :=
  if dir ∈ fs then fs else fs ++ [dir]

/-- `safe_copy`: make the parent directory, resolve the collision-free
destination, copy.  Returns the destination actually used and the
updated filesystem. -/
def safe_copy (fs : List String) (dir stem sfx : String) : String × List String :=
  let fs1 := mkdirP fs dir
  let dst := unique_dest fs1 dir stem sfx
  (dst, fs1 ++ [dst])

/-- `safe_move`: as `safe_copy` but the source path stops existing. -/
def safe_move (fs : List String) (src dir stem sfx : String) : String × List String :=
  let fs1 := mkdirP fs dir
  let dst := unique_dest fs1 dir stem sfx
  (dst, (fs1.erase src) ++ [dst])

/-- `ensure_dirs`: create `base / g` for every listed group. -/
def ensure_dirs (fs : List String) (base : String) (groups : List String) : List String :=
  groups.foldl (fun a g => mkdirP a (base ++ "/" ++ g)) fs

/-- A file as the workers see it: the path decomposition `Path` gives
(`parent`, `stem`, `suffix`, with `name = stem ++ suffix`), the MIME
guess for it, and the outcomes of the external calls the code makes on
it (`stat`, `sha256`, EXIF read, `shutil` copy/move).  A `none` in
`statSize`/`hashRes` models the call raising `OSError`. -/
structure FileRec where
  parent : String
  stem : String
  sfx : String
  mime : Option String
  statSize : Option Nat
  mtime : Int
  hashRes : Option String
  exifDate : Option (Nat × Nat)
  opOk : Bool
  errMsg : String
  deriving DecidableEq, Repr

/-- `Path.name`. -/
def FileRec.name (f : FileRec) : String := f.stem ++ f.sfx

/-- `str(path)`. -/
def FileRec.pathStr (f : FileRec) : String := f.parent ++ "/" ++ f.stem ++ f.sfx

/-- A callback event: a progress fraction or a log line. -/
inductive Ev where
  | prog : ℚ → Ev
  | log : String → Ev
  deriving DecidableEq, Repr

def Ev.isProg : Ev → Bool
  | .prog _ => true
  | .log _ => false

def Ev.isLog : Ev → Bool
  | .prog _ => false
  | .log _ => true

/-- How many times the progress callback was invoked with exactly 1.0. -/
def count1 (evs : List Ev) : Nat := evs.count (Ev.prog 1)

/-- How many times the progress callback was invoked at all. -/
def countProg (evs : List Ev) : Nat := evs.countP Ev.isProg

/-- A performed copy/move in a sort run: source path, the `target_dir`
chosen for it, the collision-resolved destination, and the mode. -/
structure Act where
  src : String
  dir : String
  dest : String
  moved : Bool
  deriving DecidableEq, Repr

/-- `f"{exif_dt.month:02d}"`. -/
def month2 (m : Nat) : String := if m < 10 then "0" ++ natRepr m else natRepr m

/-- The `target_dir` the sort loop computes for one file: classify,
redirect to `Others` when the category is not among the selected ones,
and add the `year/month` subfolder for Photos when EXIF sorting is on
and an EXIF date is available. -/
def sortTarget (pil : Bool) (base : String) (groups_selected : List String)
    (exif_by_date : Bool) (f : FileRec) : String :=
  let g0 := classifyFile f.sfx f.mime
  let group := if groups_selected ≠ [] ∧ g0 ∉ groups_selected then "Others" else g0
  if group = "Photos" ∧ exif_by_date ∧ pil then
    match f.exifDate with
    | some ym => base ++ "/" ++ group ++ "/" ++ natRepr ym.1 ++ "/" ++ month2 ym.2
    | none => base ++ "/" ++ group
  else base ++ "/" ++ group

/-- The `try`-block body of one sort-loop iteration: move or copy to the
resolved destination, or convert the failure to an `Error ...` log line.
Returns (events, performed actions, filesystem). -/
def sortStep (pil move_mode : Bool) (base : String) (groups_selected : List String)
    (exif_by_date : Bool) (fs : List String) (f : FileRec) :
    List Ev × List Act × List String :=
  let target_dir := sortTarget pil base groups_selected exif_by_date f
  if f.opOk then
    if move_mode then
      let r := safe_move fs f.pathStr target_dir f.stem f.sfx
      ([Ev.log ("Moved: " ++ f.name)], [⟨f.pathStr, target_dir, r.1, true⟩], r.2)
    else
      let r := safe_copy fs target_dir f.stem f.sfx
      ([Ev.log ("Copied: " ++ f.name)], [⟨f.pathStr, target_dir, r.1, false⟩], r.2)
  else ([Ev.log ("Error " ++ f.name ++ ": " ++ f.errMsg)], [], mkdirP fs target_dir)

/-- The result of a sort run: emitted events, performed copy/move
actions, final filesystem. -/
structure SortOut where
  events : List Ev
  acts : List Act
  fs : List String
  deriving Repr

/-- The `for idx, f in enumerate(files, start=1)` loop of `sort_worker`:
poll the stop token, process the file, report `idx / total`. -/
def sortLoop (stop : Nat → Bool) (pil move_mode : Bool) (base : String)
    (groups_selected : List String) (exif_by_date : Bool) (total : Nat) :
    List FileRec → Nat → List String → SortOut
  | [], _, fs => ⟨[], [], fs⟩
  | f :: rest, idx, fs =>
    if stop (idx - 1) then ⟨[Ev.log "Sorting cancelled."], [], fs⟩
    else
      let s := sortStep pil move_mode base groups_selected exif_by_date fs f
      let r := sortLoop stop pil move_mode base groups_selected exif_by_date total
                 rest (idx + 1) s.2.2
      ⟨s.1 ++ [Ev.prog ((idx : ℚ) / (total : ℚ))] ++ r.events, s.2.1 ++ r.acts, r.fs⟩

/-- `sort_worker`.  `listing` is the outcome of `list(iter_files(...))`
(`.error e` models the listing raising), `fs0` the filesystem at start. -/
def sort_worker (stop : Nat → Bool) (pil : Bool) (base : String) (move_mode : Bool)
    (groups_selected : List String) (exif_by_date : Bool)
    (listing : Except String (List FileRec)) (fs0 : List String) : SortOut :=
  match listing with
  | .error e =>
    ⟨[Ev.log ("Scanning " ++ base ++ "..."), Ev.log ("Scan failed: " ++ e)], [], fs0⟩
  | .ok files =>
    let total := files.length
    if total = 0 then
      ⟨[Ev.log ("Scanning " ++ base ++ "..."),
        Ev.log "No files found to sort in this folder.", Ev.prog 1], [], fs0⟩
    else
      let fs1 := ensure_dirs fs0 base DEFAULT_FOLDERS
      let r := sortLoop stop pil move_mode base groups_selected exif_by_date total files 1 fs1
      ⟨Ev.log ("Scanning " ++ base ++ "...") ::
         Ev.log ("Found " ++ natRepr total ++ " files. Processing...") ::
         r.events ++ [Ev.prog 1, Ev.log "Operation complete!"],
       r.acts, r.fs⟩

/-- A `DuplicateGroup` as `duplicate_scan_worker` produces it. -/
structure DupGroup where
  keep : FileRec
  delete : List FileRec
  reason : String
  deriving DecidableEq, Repr

/-- Python `dict.setdefault(k, []).append(f)` on an association list. -/
def setdefaultApp {K : Type} [DecidableEq K] :
    List (K × List FileRec) → K → FileRec → List (K × List FileRec)
  | [], k, f => [(k, [f])]
  | kv :: rest, k, f =>
    if kv.1 = k then (kv.1, kv.2 ++ [f]) :: rest else kv :: setdefaultApp rest k f

/-- One step of the bucketing fold: `setdefault(key(f), []).append(f)`,
with a file whose key call raised (`none`) silently dropped
(`except: pass`). -/
def groupStep {K : Type} [DecidableEq K] (key : FileRec → Option K)
    (m : List (K × List FileRec)) (f : FileRec) : List (K × List FileRec) :=
  match key f with
  | some k => setdefaultApp m k f
  | none => m

/-- Group files by an optional key, in insertion order. -/
def groupByKey {K : Type} [DecidableEq K] (key : FileRec → Option K)
    (files : List FileRec) : List (K × List FileRec) :=
  files.foldl (groupStep key) []

/-- `size_map`: files bucketed by `f.stat().st_size`. -/
def sizeMapOf (files : List FileRec) : List (Nat × List FileRec) :=
  groupByKey (fun f => f.statSize) files

/-- `hashes`: a bucket's files grouped by `sha256(f)`. -/
def hashMapOf (group : List FileRec) : List (String × List FileRec) :=
  groupByKey (fun f => f.hashRes) group

/-- Python `max(xs, key=...)` keeps the first element among those with
the maximal key: a later element replaces the current best only when its
key is strictly greater. -/
def maxByMtime (x : FileRec) (xs : List FileRec) : FileRec :=
  xs.foldl (fun best y => if best.mtime < y.mtime then y else best) x

/-- The `DuplicateGroup`s one hash group contributes: nothing unless it
has at least two members, else one group keeping the most recently
modified file (`max(h_group, key=mtime)`), deleting the rest
(`[p for p in h_group if p != keep]`, paths compared as strings). -/
def entryGroups (hg : String × List FileRec) : List DupGroup :=
  match hg.2 with
  | [] => []
  | x :: xs =>
    if 0 < xs.length then
      let keep := maxByMtime x xs
      [⟨keep, (x :: xs).filter (fun p => decide (p.pathStr ≠ keep.pathStr)), "exact"⟩]
    else []

/-- The `DuplicateGroup`s one size bucket contributes: every hash group
with at least two members, in hash-insertion order. -/
def bucketGroups (group : List FileRec) : List DupGroup :=
  (hashMapOf group).foldl (fun acc hg => acc ++ entryGroups hg) []

/-- The result of a duplicate scan: events, the groups handed to the
result callback, and (instrumentation) every file `sha256` was invoked
on, in invocation order. -/
structure DupOut where
  events : List Ev
  result : List DupGroup
  hashed : List FileRec
  deriving DecidableEq, Repr

/-- The per-bucket loop of `duplicate_scan_worker`: poll the stop token;
skip singleton buckets without hashing; hash and group the others;
report `current_grp / total_size_groups` either way. -/
def dupLoop (stop : Nat → Bool) (totalB : Nat) :
    List (Nat × List FileRec) → Nat → List Ev × List DupGroup × List FileRec
  | [], _ => ([], [], [])
  | b :: rest, idx =>
    if stop (idx - 1) then ([], [], [])
    else if b.2.length < 2 then
      let r := dupLoop stop totalB rest (idx + 1)
      (Ev.prog ((idx : ℚ) / (totalB : ℚ)) :: r.1, r.2.1, r.2.2)
    else
      let gs := bucketGroups b.2
      let r := dupLoop stop totalB rest (idx + 1)
      (Ev.prog ((idx : ℚ) / (totalB : ℚ)) :: r.1, gs ++ r.2.1, b.2 ++ r.2.2)

/-- The post-`images_only` filter applied to the listing. -/
def dupFiles (images_only : Bool) (files0 : List FileRec) : List FileRec :=
  if images_only then files0.filter (fun f => decide (classifyFile f.sfx f.mime = "Photos"))
  else files0

/-- `duplicate_scan_worker`.  The `use_phash` flag and
`perceptual_threshold` argument are accepted exactly as in the source,
whose body never reads them. -/
def duplicate_scan_worker (stop : Nat → Bool) (images_only use_phash : Bool)
    (perceptual_threshold : ℚ) (files0 : List FileRec) : DupOut :=
  let files := dupFiles images_only files0
  if files.length = 0 then
    ⟨[Ev.log "Listing files...", Ev.log "No files to scan."], [], []⟩
  else
    let sm := sizeMapOf files
    let r := dupLoop stop sm.length sm 1
    ⟨Ev.log "Listing files..." ::
       Ev.log ("Scanning " ++ natRepr files.length ++ " files for duplicates...") :: r.1
       ++ [Ev.log ("Found " ++ natRepr r.2.1.length ++ " duplicate groups.")],
     r.2.1, r.2.2⟩

/-- A face cluster: the accumulated feature vectors and the contributing
images (a Python `set` of paths, modelled as an insertion-ordered list
without repeats). -/
structure Cluster (V : Type) where
  encodings : List V
  images : List FileRec
  deriving Repr

/-- Python `min` over a nonempty list, head-seeded left fold. -/
def pyMin (x : ℚ) (xs : List ℚ) : ℚ := xs.foldl min x

/-- `len(dists) > 0 and min(dists) < 0.6` for
`dists = face_recognition.face_distance(c['encodings'], enc)`. -/
def minDistLt {V : Type} (dist : V → V → ℚ) (c : Cluster V) (v : V) : Bool :=
  match c.encodings.map (fun e => dist e v) with
  | [] => false
  | d :: ds => decide (pyMin d ds < 3 / 5)

/-- `set.add` on the insertion-ordered image list (paths compare by
their string). -/
def addImg (l : List FileRec) (p : FileRec) : List FileRec :=
  if l.any (fun q => decide (q.pathStr = p.pathStr)) then l else l ++ [p]

/-- Place one extracted vector: scan the existing clusters in creation
order, extend the first one whose minimum distance to `v` is below the
threshold and stop (`found = True; break`); if none matches, append a
fresh cluster holding only `v` and this image. -/
def insertEnc {V : Type} (dist : V → V → ℚ) (img : FileRec) (v : V) :
    List (Cluster V) → List (Cluster V)
  | [] => [⟨[v], [img]⟩]
  | c :: rest =>
    if minDistLt dist c v then ⟨c.encodings ++ [v], addImg c.images img⟩ :: rest
    else c :: insertEnc dist img v rest

/-- `for enc in encs:` — place each extracted vector of one image. -/
def processImage {V : Type} (dist : V → V → ℚ) (encs : List V) (img : FileRec)
    (clusters : List (Cluster V)) : List (Cluster V) :=
  encs.foldl (fun cs v => insertEnc dist img v cs) clusters

/-- The `for idx, p in enumerate(photos)` loop of `face_grouping_worker`
(`idx` starts at 0): poll the stop token, cluster the image's vectors,
report `(idx + 1) / total`. -/
def faceLoop {V : Type} (stop : Nat → Bool) (dist : V → V → ℚ)
    (encsOf : FileRec → List V) (total : Nat) :
    List FileRec → Nat → List (Cluster V) → List Ev × List (Cluster V)
  | [], _, cs => ([], cs)
  | p :: rest, idx, cs =>
    if stop idx then ([], cs)
    else
      let cs1 := processImage dist (encsOf p) p cs
      let r := faceLoop stop dist encsOf total rest (idx + 1) cs1
      (Ev.prog (((idx : ℚ) + 1) / (total : ℚ)) :: r.1, r.2)

/-- Copy every contributing image of one cluster into its `Person_<i>`
folder through `unique_dest`; returns the realized destination list and
the filesystem. -/
def materializeCluster (fs : List String) (pDir : String) (imgs : List FileRec) :
    List String × List String :=
  imgs.foldl
    (fun acc img =>
      let dst := unique_dest acc.2 pDir img.stem img.sfx
      (acc.1 ++ [dst], acc.2 ++ [dst]))
    ([], fs)

/-- Materialize the clusters as `Faces/Person_<i>` albums
(`enumerate(clusters, 1)`). -/
def materialize {V : Type} (facesDir : String) :
    List (Cluster V) → Nat → List String → List (List String) × List String
  | [], _, fs => ([], fs)
  | c :: rest, i, fs =>
    let pDir := facesDir ++ "/Person_" ++ natRepr i
    let fs1 := mkdirP fs pDir
    let m := materializeCluster fs1 pDir c.images
    let r := materialize facesDir rest (i + 1) m.2
    (m.1 :: r.1, r.2)

/-- The result of a face-clustering run: events, the album path lists
handed to the result callback (`none` when the callback was never
invoked), the clusters built by the loop, and the final filesystem. -/
structure FaceOut (V : Type) where
  events : List Ev
  result : Option (List (List String))
  clusters : List (Cluster V)
  fs : List String
  deriving Repr

/-- `face_grouping_worker`.  `faceAvailable` is the `FACE_AVAILABLE`
flag, `dist` the external `face_recognition.face_distance` metric and
`encsOf` the external `face_encodings_for_image` capability. -/
def face_grouping_worker {V : Type} (faceAvailable : Bool) (stop : Nat → Bool)
    (dist : V → V → ℚ) (encsOf : FileRec → List V) (base : String)
    (files : List FileRec) (fs0 : List String) : FaceOut V :=
  if faceAvailable = false then
    ⟨[Ev.log "Face recognition not installed.", Ev.prog 1], none, [], fs0⟩
  else
    let photos := files.filter (fun f => decide (classifyFile f.sfx f.mime = "Photos"))
    let total := photos.length
    if photos = [] then
      ⟨[Ev.log "No photos found.", Ev.prog 1], none, [], fs0⟩
    else
      let r := faceLoop stop dist encsOf total photos 0 []
      let facesDir := base ++ "/Faces"
      let fs1 := mkdirP fs0 facesDir
      let m := materialize facesDir r.2 1 fs1
      ⟨Ev.log ("Analyzing faces in " ++ natRepr total ++ " photos...") :: r.1
         ++ [Ev.log ("Created " ++ natRepr m.1.length ++ " face albums.")],
       some m.1, r.2, m.2⟩

/-! ## Classifier (claim C3) -/

theorem mem_MIME_MAP_pdf : ("application/pdf", "PDFs") ∈ MIME_MAP := by decide

/-- C3: for every non-directory path, classification is a pure total
function resolving in the spec's order — (a) lowercased-extension lookup
in the static table, (b) else the first matching entry of the ordered
(MIME-prefix, category) list, (c) else `Others`; in particular an
unknown extension with no guessable MIME type (or a MIME type matching
no prefix rule) classifies as `Others`.  `classifySpec` is the literal
transcription of the spec's resolution order; the code's extra
`mime == "application/pdf"` re-check is unreachable because the
`MIME_MAP` scan already matches that prefix. -/
theorem find_none_ne_pdf {m : String}
    (hf : MIME_MAP.find? (fun km => strStartsWith m km.1) = none) :
    m ≠ "application/pdf" := by
  intro hm
  have hall := List.find?_eq_none.mp hf ("application/pdf", "PDFs") mem_MIME_MAP_pdf
  rw [hm] at hall
  exact hall (by decide)

/-- C3: for every non-directory path, classification is a pure total
function resolving in the spec's order — (a) lowercased-extension lookup
in the static table, (b) else the first matching entry of the ordered
(MIME-prefix, category) list, (c) else `Others`; in particular an
unknown extension with no guessable MIME type (or a MIME type matching
no prefix rule) classifies as `Others`.  `classifySpec` is the literal
transcription of the spec's resolution order; the code's extra
`mime == "application/pdf"` re-check is unreachable because the
`MIME_MAP` scan already matches that prefix. -/
theorem claim_C3_classifier :
    (∀ sfx mime, detect_group false sfx mime = some (classifySpec sfx mime))
    ∧ (∀ sfx mime, lookupStr EXT_TO_GROUP (strLower sfx) = none →
        (mime = none ∨ ∃ m, mime = some m ∧
          MIME_MAP.find? (fun km => strStartsWith m km.1) = none) →
        detect_group false sfx mime = some "Others") := by
  constructor
  · intro sfx mime
    cases hl : lookupStr EXT_TO_GROUP (strLower sfx) with
    | some g => simp [detect_group, classifyFile, classifySpec, hl]
    | none =>
      cases mime with
      | none => simp [detect_group, classifyFile, classifySpec, hl]
      | some m =>
        cases hf : MIME_MAP.find? (fun km => strStartsWith m km.1) with
        | some km => simp [detect_group, classifyFile, classifySpec, hl, hf]
        | none =>
          simp [detect_group, classifyFile, classifySpec, hl, hf, find_none_ne_pdf hf]
  · intro sfx mime hl hrest
    rcases hrest with h | ⟨m, hm, hf⟩
    · subst h
      simp [detect_group, classifyFile, hl]
    · subst hm
      simp [detect_group, classifyFile, hl, hf, find_none_ne_pdf hf]

theorem claim_C3_classifier_witness : detect_group false ".xyz" none = some "Others" :=
  claim_C3_classifier.2 ".xyz" none (by decide) (Or.inl rfl)

/-! ## Destination resolver (claim C4) -/

/-- C4: `unique_dest` never returns an existing path; a non-existing
original is returned unchanged; and when the original and the candidates
with suffixes `(1) … (n-1)` all exist while `(n)` is free, the result is
the candidate with suffix `(n)`. -/
theorem claim_C4_unique_dest (fs : List String) (parent stem sfx : String) :
    unique_dest fs parent stem sfx ∉ fs
    ∧ ((parent ++ "/" ++ stem ++ sfx) ∉ fs →
        unique_dest fs parent stem sfx = parent ++ "/" ++ stem ++ sfx)
    ∧ (∀ n, 1 ≤ n → (parent ++ "/" ++ stem ++ sfx) ∈ fs →
        (∀ i, 1 ≤ i → i < n → candPath parent stem sfx i ∈ fs) →
        candPath parent stem sfx n ∉ fs →
        unique_dest fs parent stem sfx = candPath parent stem sfx n) := by
  refine ⟨?_, ?_, ?_⟩
  · by_cases hdest : (parent ++ "/" ++ stem ++ sfx) ∈ fs
    · simp only [unique_dest, if_pos hdest]
      exact Nat.find_spec (exists_free fs parent stem sfx)
    · simp only [unique_dest, if_neg hdest]
      exact hdest
  · intro hdest
    simp only [unique_dest, if_neg hdest]
  · intro n hn hdest hprev hfree
    simp only [unique_dest, if_pos hdest]
    have hfind : Nat.find (exists_free fs parent stem sfx) = n - 1 := by
      rw [Nat.find_eq_iff]
      refine ⟨?_, ?_⟩
      · rw [(by omega : n - 1 + 1 = n)]; exact hfree
      · intro m hm hcontra
        exact hcontra (hprev (m + 1) (by omega) (by omega))
    rw [hfind, (by omega : n - 1 + 1 = n)]

theorem claim_C4_unique_dest_witness :
    unique_dest ["/r/a.txt"] "/r" "a" ".txt" = candPath "/r" "a" ".txt" 1 :=
  (claim_C4_unique_dest ["/r/a.txt"] "/r" "a" ".txt").2.2 1 le_rfl (by decide)
    (fun i hi hlt => absurd hlt (by omega)) (by decide)

/-! ## The perceptual-hash flag is dead (claim C7) -/

/-- C7: the delivered duplicate groups (indeed the entire observable
outcome of the scan) do not depend on `use_phash` or
`perceptual_threshold`: the body of `duplicate_scan_worker` never reads
them, so no perceptual-match pass is ever performed. -/
theorem claim_C7_phash_noop (stop : Nat → Bool) (images_only : Bool)
    (u1 u2 : Bool) (t1 t2 : ℚ) (files0 : List FileRec) :
    duplicate_scan_worker stop images_only u1 t1 files0
      = duplicate_scan_worker stop images_only u2 t2 files0 := rfl

/-! ## Progress-count bookkeeping (claim C1) -/

theorem count1_append (a b : List Ev) : count1 (a ++ b) = count1 a + count1 b :=
  List.count_append _ _ _

theorem count1_prog (q : ℚ) : count1 [Ev.prog q] = if q = 1 then 1 else 0 := by
  by_cases h : q = 1 <;> simp [count1, List.count_singleton, beq_iff_eq, h]

theorem count1_log (s : String) : count1 [Ev.log s] = 0 := by simp [count1]

theorem div_cast_ne_one {i t : Nat} (h : i < t) : ((i : ℚ) / (t : ℚ)) ≠ 1 := by
  have ht : (t : ℚ) ≠ 0 := by
    simp only [ne_eq, Nat.cast_eq_zero]
    omega
  intro he
  rw [div_eq_one_iff_eq ht] at he
  have : i = t := by exact_mod_cast he
  omega

theorem div_cast_self_one {t : Nat} (h : 0 < t) : ((t : ℚ) / (t : ℚ)) = 1 := by
  have ht : (t : ℚ) ≠ 0 := by
    simp only [ne_eq, Nat.cast_eq_zero]
    omega
  exact div_self ht

theorem sortStep_events (pil mm : Bool) (base : String) (sel : List String) (exif : Bool)
    (fs : List String) (f : FileRec) :
    ∃ s, (sortStep pil mm base sel exif fs f).1 = [Ev.log s] := by
  simp only [sortStep]
  by_cases h : f.opOk = true <;> by_cases h2 : mm = true <;> simp [h, h2]

theorem sortStep_count1 (pil mm : Bool) (base : String) (sel : List String) (exif : Bool)
    (fs : List String) (f : FileRec) :
    count1 (sortStep pil mm base sel exif fs f).1 = 0 := by
  obtain ⟨s, hs⟩ := sortStep_events pil mm base sel exif fs f
  rw [hs, count1_log]

theorem sortLoop_count1_stopped (stop : Nat → Bool) (pil mm : Bool) (base : String)
    (sel : List String) (exif : Bool) (total : Nat) :
    ∀ (l : List FileRec) (idx : Nat) (fs : List String),
      1 ≤ idx → idx + l.length = total + 1 →
      (∃ j, idx ≤ j + 1 ∧ j + 1 ≤ total ∧ stop j = true) →
      count1 (sortLoop stop pil mm base sel exif total l idx fs).events = 0
  | [], idx, fs => by
    intro h1 hlen ⟨j, hj1, hj2, hj3⟩
    simp only [List.length_nil] at hlen
    omega
  | f :: rest, idx, fs => by
    intro h1 hlen ⟨j, hj1, hj2, hj3⟩
    simp only [sortLoop]
    cases hstop : stop (idx - 1) with
    | true => simp [count1]
    | false =>
      simp only [Bool.false_eq_true, if_false]
      have hneq : j + 1 ≠ idx := by
        intro he
        rw [(by omega : j = idx - 1)] at hj3
        rw [hj3] at hstop
        exact absurd hstop (by decide)
      have hlt : idx < total := by omega
      rw [count1_append, count1_append, sortStep_count1, count1_prog,
        if_neg (div_cast_ne_one hlt),
        sortLoop_count1_stopped stop pil mm base sel exif total rest (idx + 1) _
          (by omega) (by simp only [List.length_cons] at hlen; omega) ⟨j, by omega, hj2, hj3⟩]

theorem sortLoop_count1_completes (stop : Nat → Bool) (pil mm : Bool) (base : String)
    (sel : List String) (exif : Bool) (total : Nat) :
    ∀ (l : List FileRec) (idx : Nat) (fs : List String),
      1 ≤ idx → idx + l.length = total + 1 → l ≠ [] →
      (∀ j, idx ≤ j + 1 → j + 1 ≤ total → stop j = false) →
      count1 (sortLoop stop pil mm base sel exif total l idx fs).events = 1
  | [], _, _ => by
    intro _ _ hne _
    exact absurd rfl hne
  | f :: rest, idx, fs => by
    intro h1 hlen _ hstop
    have hidxle : idx ≤ total := by
      simp only [List.length_cons] at hlen
      omega
    simp only [sortLoop]
    rw [hstop (idx - 1) (by omega) (by omega)]
    simp only [Bool.false_eq_true, if_false]
    rw [count1_append, count1_append, sortStep_count1]
    cases rest with
    | nil =>
      have hidx : idx = total := by
        simp only [List.length_cons, List.length_nil] at hlen
        omega
      subst hidx
      rw [count1_prog, if_pos (div_cast_self_one (by omega))]
      simp [sortLoop, count1]
    | cons g rest' =>
      have hlt : idx < total := by
        simp only [List.length_cons] at hlen
        omega
      rw [count1_prog, if_neg (div_cast_ne_one hlt),
        sortLoop_count1_completes stop pil mm base sel exif total (g :: rest') (idx + 1) _
          (by omega) (by simp only [List.length_cons] at hlen ⊢; omega) (by simp)
          (fun j hj1 hj2 => hstop j (by omega) hj2)]

theorem count1_cons_prog (q : ℚ) (evs : List Ev) :
    count1 (Ev.prog q :: evs) = (if q = 1 then 1 else 0) + count1 evs := by
  by_cases h : q = 1 <;> simp [count1, List.count_cons, beq_iff_eq, h, Nat.add_comm]

theorem count1_cons_log (s : String) (evs : List Ev) :
    count1 (Ev.log s :: evs) = count1 evs := by
  simp [count1, List.count_cons]

theorem dupLoop_count1_stopped (stop : Nat → Bool) (totalB : Nat) :
    ∀ (l : List (Nat × List FileRec)) (idx : Nat),
      1 ≤ idx → idx + l.length = totalB + 1 →
      (∃ j, idx ≤ j + 1 ∧ j + 1 ≤ totalB ∧ stop j = true) →
      count1 (dupLoop stop totalB l idx).1 = 0
  | [], idx => by
    intro h1 hlen ⟨j, hj1, hj2, _⟩
    simp only [List.length_nil] at hlen
    omega
  | b :: rest, idx => by
    intro h1 hlen ⟨j, hj1, hj2, hj3⟩
    simp only [dupLoop]
    cases hstop : stop (idx - 1) with
    | true => simp [count1]
    | false =>
      simp only [Bool.false_eq_true, if_false]
      have hneq : j + 1 ≠ idx := by
        intro he
        rw [(by omega : j = idx - 1)] at hj3
        rw [hj3] at hstop
        exact absurd hstop (by decide)
      have hlt : idx < totalB := by omega
      have hrec := dupLoop_count1_stopped stop totalB rest (idx + 1)
        (by omega) (by simp only [List.length_cons] at hlen; omega) ⟨j, by omega, hj2, hj3⟩
      by_cases hsmall : b.2.length < 2 <;>
        simp only [hsmall, if_true, if_false] <;>
        rw [count1_cons_prog, if_neg (div_cast_ne_one hlt), hrec]

theorem dupLoop_count1_completes (stop : Nat → Bool) (totalB : Nat) :
    ∀ (l : List (Nat × List FileRec)) (idx : Nat),
      1 ≤ idx → idx + l.length = totalB + 1 → l ≠ [] →
      (∀ j, idx ≤ j + 1 → j + 1 ≤ totalB → stop j = false) →
      count1 (dupLoop stop totalB l idx).1 = 1
  | [], _ => by
    intro _ _ hne _
    exact absurd rfl hne
  | b :: rest, idx => by
    intro h1 hlen _ hstop
    have hidxle : idx ≤ totalB := by
      simp only [List.length_cons] at hlen
      omega
    simp only [dupLoop]
    rw [hstop (idx - 1) (by omega) (by omega)]
    simp only [Bool.false_eq_true, if_false]
    cases rest with
    | nil =>
      have hidx : idx = totalB := by
        simp only [List.length_cons, List.length_nil] at hlen
        omega
      subst hidx
      by_cases hsmall : b.2.length < 2 <;>
        simp only [hsmall, if_true, if_false] <;>
        rw [count1_cons_prog, if_pos (div_cast_self_one (by omega))] <;>
        simp [dupLoop, count1]
    | cons b2 rest' =>
      have hlt : idx < totalB := by
        simp only [List.length_cons] at hlen
        omega
      have hrec := dupLoop_count1_completes stop totalB (b2 :: rest') (idx + 1)
        (by omega) (by simp only [List.length_cons] at hlen ⊢; omega) (by simp)
        (fun j hj1 hj2 => hstop j (by omega) hj2)
      by_cases hsmall : b.2.length < 2 <;>
        simp only [hsmall, if_true, if_false] <;>
        rw [count1_cons_prog, if_neg (div_cast_ne_one hlt), hrec]

theorem faceLoop_count1_stopped {V : Type} (stop : Nat → Bool) (dist : V → V → ℚ)
    (encsOf : FileRec → List V) (total : Nat) :
    ∀ (l : List FileRec) (idx : Nat) (cs : List (Cluster V)),
      idx + l.length = total →
      (∃ j, idx ≤ j ∧ j < total ∧ stop j = true) →
      count1 (faceLoop stop dist encsOf total l idx cs).1 = 0
  | [], idx, cs => by
    intro hlen ⟨j, hj1, hj2, _⟩
    simp only [List.length_nil] at hlen
    omega
  | p :: rest, idx, cs => by
    intro hlen ⟨j, hj1, hj2, hj3⟩
    simp only [faceLoop]
    cases hstop : stop idx with
    | true => simp [count1]
    | false =>
      simp only [Bool.false_eq_true, if_false]
      have hneq : j ≠ idx := by
        intro he
        rw [he] at hj3
        rw [hj3] at hstop
        exact absurd hstop (by decide)
      have hlt : idx + 1 < total := by omega
      rw [count1_cons_prog]
      have hq : ((idx : ℚ) + 1) = ((idx + 1 : Nat) : ℚ) := by push_cast; ring
      rw [hq, if_neg (div_cast_ne_one hlt),
        faceLoop_count1_stopped stop dist encsOf total rest (idx + 1) _
          (by simp only [List.length_cons] at hlen; omega) ⟨j, by omega, hj2, hj3⟩]

theorem faceLoop_count1_completes {V : Type} (stop : Nat → Bool) (dist : V → V → ℚ)
    (encsOf : FileRec → List V) (total : Nat) :
    ∀ (l : List FileRec) (idx : Nat) (cs : List (Cluster V)),
      idx + l.length = total → l ≠ [] →
      (∀ j, idx ≤ j → j < total → stop j = false) →
      count1 (faceLoop stop dist encsOf total l idx cs).1 = 1
  | [], _, _ => by
    intro _ hne _
    exact absurd rfl hne
  | p :: rest, idx, cs => by
    intro hlen _ hstop
    have hidxlt : idx < total := by
      simp only [List.length_cons] at hlen
      omega
    simp only [faceLoop]
    rw [hstop idx le_rfl hidxlt]
    simp only [Bool.false_eq_true, if_false]
    rw [count1_cons_prog]
    have hq : ((idx : ℚ) + 1) = ((idx + 1 : Nat) : ℚ) := by push_cast; ring
    cases rest with
    | nil =>
      have hidx : idx + 1 = total := by
        simp only [List.length_cons, List.length_nil] at hlen
        omega
      rw [hq, hidx, if_pos (div_cast_self_one (by omega))]
      simp [faceLoop, count1]
    | cons p2 rest' =>
      have hlt : idx + 1 < total := by
        simp only [List.length_cons] at hlen
        omega
      rw [hq, if_neg (div_cast_ne_one hlt),
        faceLoop_count1_completes stop dist encsOf total (p2 :: rest') (idx + 1) _
          (by simp only [List.length_cons] at hlen ⊢; omega) (by simp)
          (fun j hj1 hj2 => hstop j (by omega) hj2)]

/-- A photo file whose every external call succeeds. -/
def sampleJpg : FileRec := ⟨"/r", "a", ".jpg", none, some 5, 10, some "h1", none, true, ""⟩

/-- A second photo of the same size and content digest. -/
def sampleJpg2 : FileRec := ⟨"/r", "b", ".jpg", none, some 5, 3, some "h1", none, true, ""⟩

/-- A text file of a different size. -/
def sampleTxt : FileRec := ⟨"/r", "c", ".txt", none, some 2, 0, some "h2", none, true, ""⟩

/-- A photo whose `sha256` call raises (same size as `sampleJpg2`). -/
def sampleBadHash : FileRec := ⟨"/r", "a", ".jpg", none, some 5, 10, none, none, true, ""⟩

/-- A file whose copy/move call raises. -/
def sampleBadCopy : FileRec :=
  ⟨"/r", "d", ".txt", none, some 7, 0, some "h3", none, false, "Permission denied"⟩

/-- C1 counterexample: on zero-file input the duplicate scan returns
after `result_cb([])` without ever invoking the progress callback, so
1.0 is emitted zero times, not exactly once. -/
theorem claim_C1_progress_cex :
    count1 (duplicate_scan_worker (fun _ => false) false false 0 []).events = 0 := by decide

/-- C1 (amended): how often each worker actually emits progress 1.0 on
each terminal path.  `sort_worker` emits it exactly once on zero-file
input and on cancellation, but twice on a successful nonempty run (once
as `total/total` inside the loop and once unconditionally after it);
`duplicate_scan_worker` emits it exactly once on a completed nonempty
run (as `total/total` for the last bucket) and never on zero-file input
or when cancelled before the last bucket; `face_grouping_worker` emits
it exactly once when the capability is missing, on zero-photo input and
on a completed run, and never when cancelled before the last photo. -/
theorem claim_C1_progress_amended :
    (∀ pil base mm sel exif fs0,
      count1 (sort_worker (fun _ => false) pil base mm sel exif (.ok []) fs0).events = 1)
    ∧ (∀ stop pil base mm sel exif files fs0, files ≠ [] →
        (∃ j, j + 1 ≤ files.length ∧ stop j = true) →
        count1 (sort_worker stop pil base mm sel exif (.ok files) fs0).events = 1)
    ∧ (∀ stop pil base mm sel exif files fs0, files ≠ [] →
        (∀ j, j + 1 ≤ files.length → stop j = false) →
        count1 (sort_worker stop pil base mm sel exif (.ok files) fs0).events = 2)
    ∧ (∀ stop io u t files0, dupFiles io files0 = [] →
        count1 (duplicate_scan_worker stop io u t files0).events = 0)
    ∧ (∀ stop io u t files0, dupFiles io files0 ≠ [] →
        (∃ j, j + 1 ≤ (sizeMapOf (dupFiles io files0)).length ∧ stop j = true) →
        count1 (duplicate_scan_worker stop io u t files0).events = 0)
    ∧ (∀ stop io u t files0, dupFiles io files0 ≠ [] →
        sizeMapOf (dupFiles io files0) ≠ [] →
        (∀ j, j + 1 ≤ (sizeMapOf (dupFiles io files0)).length → stop j = false) →
        count1 (duplicate_scan_worker stop io u t files0).events = 1)
    ∧ (∀ (V : Type) (stop : Nat → Bool) (dist : V → V → ℚ) encsOf base files fs0,
        count1 (face_grouping_worker false stop dist encsOf base files fs0).events = 1)
    ∧ (∀ (V : Type) (stop : Nat → Bool) (dist : V → V → ℚ) encsOf base files fs0,
        files.filter (fun f => decide (classifyFile f.sfx f.mime = "Photos")) = [] →
        count1 (face_grouping_worker true stop dist encsOf base files fs0).events = 1)
    ∧ (∀ (V : Type) (stop : Nat → Bool) (dist : V → V → ℚ) encsOf base files fs0,
        (∃ j, j < (files.filter (fun f => decide (classifyFile f.sfx f.mime = "Photos"))).length ∧
          stop j = true) →
        count1 (face_grouping_worker true stop dist encsOf base files fs0).events = 0)
    ∧ (∀ (V : Type) (stop : Nat → Bool) (dist : V → V → ℚ) encsOf base files fs0,
        files.filter (fun f => decide (classifyFile f.sfx f.mime = "Photos")) ≠ [] →
        (∀ j, j < (files.filter (fun f => decide (classifyFile f.sfx f.mime = "Photos"))).length →
          stop j = false) →
        count1 (face_grouping_worker true stop dist encsOf base files fs0).events = 1) := by
  refine ⟨?_, ?_, ?_, ?_, ?_, ?_, ?_, ?_, ?_, ?_⟩
  · intro pil base mm sel exif fs0
    simp only [sort_worker, List.length_nil, eq_self_iff_true, if_true]
    rw [count1_cons_log, count1_cons_log, count1_prog, if_pos rfl]
  · intro stop pil base mm sel exif files fs0 hne ⟨j, hj1, hj2⟩
    have hlen : files.length ≠ 0 := fun h => hne (List.length_eq_zero.mp h)
    simp only [sort_worker, if_neg hlen]
    rw [count1_append, count1_cons_log, count1_cons_log,
      sortLoop_count1_stopped stop pil mm base sel exif files.length files 1 _
        le_rfl (by omega) ⟨j, by omega, hj1, hj2⟩,
      count1_cons_prog, if_pos rfl, count1_log]
  · intro stop pil base mm sel exif files fs0 hne hstop
    have hlen : files.length ≠ 0 := fun h => hne (List.length_eq_zero.mp h)
    simp only [sort_worker, if_neg hlen]
    rw [count1_append, count1_cons_log, count1_cons_log,
      sortLoop_count1_completes stop pil mm base sel exif files.length files 1 _
        le_rfl (by omega) hne (fun k hk1 hk2 => hstop k hk2),
      count1_cons_prog, if_pos rfl, count1_log]
  · intro stop io u t files0 hempty
    simp only [duplicate_scan_worker, hempty, List.length_nil, eq_self_iff_true, if_true]
    rw [count1_cons_log, count1_cons_log]
    rfl
  · intro stop io u t files0 hne ⟨j, hj1, hj2⟩
    have hlen : (dupFiles io files0).length ≠ 0 := fun h => hne (List.length_eq_zero.mp h)
    simp only [duplicate_scan_worker, if_neg hlen]
    rw [count1_append, count1_cons_log, count1_cons_log,
      dupLoop_count1_stopped stop (sizeMapOf (dupFiles io files0)).length
        (sizeMapOf (dupFiles io files0)) 1 le_rfl (by omega) ⟨j, by omega, hj1, hj2⟩,
      count1_log]
  · intro stop io u t files0 hne hsm hstop
    have hlen : (dupFiles io files0).length ≠ 0 := fun h => hne (List.length_eq_zero.mp h)
    simp only [duplicate_scan_worker, if_neg hlen]
    rw [count1_append, count1_cons_log, count1_cons_log,
      dupLoop_count1_completes stop (sizeMapOf (dupFiles io files0)).length
        (sizeMapOf (dupFiles io files0)) 1 le_rfl (by omega) hsm
        (fun k hk1 hk2 => hstop k hk2),
      count1_log]
  · intro V stop dist encsOf base files fs0
    simp only [face_grouping_worker, eq_self_iff_true, if_true]
    rw [count1_cons_log, count1_prog, if_pos rfl]
  · intro V stop dist encsOf base files fs0 hempty
    simp only [face_grouping_worker]
    rw [if_neg (by decide : ¬ (true = false))]
    simp only [hempty, eq_self_iff_true, if_true]
    rw [count1_cons_log, count1_prog, if_pos rfl]
  · intro V stop dist encsOf base files fs0 ⟨j, hj1, hj2⟩
    have hne : List.filter (fun f => decide (classifyFile f.sfx f.mime = "Photos")) files ≠ [] := by
      intro h
      rw [h] at hj1
      simp at hj1
    simp only [face_grouping_worker]
    rw [if_neg (by decide : ¬ (true = false)), if_neg hne,
      count1_append, count1_cons_log,
      faceLoop_count1_stopped stop dist encsOf _ _ 0 [] (by omega) ⟨j, by omega, hj1, hj2⟩,
      count1_log]
  · intro V stop dist encsOf base files fs0 hne hstop
    simp only [face_grouping_worker]
    rw [if_neg (by decide : ¬ (true = false)), if_neg hne,
      count1_append, count1_cons_log,
      faceLoop_count1_completes stop dist encsOf _ _ 0 [] (by omega) hne
        (fun k hk1 hk2 => hstop k hk2),
      count1_log]

theorem claim_C1_progress_amended_witness :
    count1 (sort_worker (fun _ => false) true "/b" false [] false
      (.ok [sampleJpg]) []).events = 2 :=
  claim_C1_progress_amended.2.2.1 (fun _ => false) true "/b" false [] false [sampleJpg] []
    (by simp) (fun j hj => rfl)

/-! ## Cancellation before any unit of work (claim C9) -/

theorem sortLoop_stop_true (pil mm : Bool) (base : String) (sel : List String)
    (exif : Bool) (total : Nat) (f : FileRec) (rest : List FileRec) (idx : Nat)
    (fs : List String) :
    sortLoop (fun _ => true) pil mm base sel exif total (f :: rest) idx fs =
      ⟨[Ev.log "Sorting cancelled."], [], fs⟩ := by
  simp [sortLoop]

theorem dupLoop_stop_true (totalB : Nat) :
    ∀ (l : List (Nat × List FileRec)) (idx : Nat),
      dupLoop (fun _ => true) totalB l idx = ([], [], []) := by
  intro l idx
  cases l <;> simp [dupLoop]

theorem faceLoop_stop_true {V : Type} (dist : V → V → ℚ) (encsOf : FileRec → List V)
    (total : Nat) :
    ∀ (l : List FileRec) (idx : Nat) (cs : List (Cluster V)),
      faceLoop (fun _ => true) dist encsOf total l idx cs = ([], cs) := by
  intro l idx cs
  cases l <;> simp [faceLoop]

/-- C9 counterexample: a duplicate scan started with the token already
set processes nothing, yet it delivers the result callback and the
normal completion log line, with no cancellation indication of any
kind — exactly the observable outcome of a completed scan that found no
duplicates, not a distinct "Cancelled" terminal state. -/
theorem claim_C9_cancel_cex :
    (duplicate_scan_worker (fun _ => true) false false 0 [sampleJpg, sampleJpg2]).hashed = []
    ∧ (duplicate_scan_worker (fun _ => true) false false 0 [sampleJpg, sampleJpg2]).events
        = [Ev.log "Listing files...", Ev.log "Scanning 2 files for duplicates...",
           Ev.log "Found 0 duplicate groups."]
    ∧ (duplicate_scan_worker (fun _ => true) false false 0 [sampleJpg, sampleJpg2]).result = [] := by
  refine ⟨by decide, ?_, by decide⟩
  decide

/-- C9 (amended): with the token set before any unit of work, zero items
are processed everywhere — the sort performs no copy/move, the scan
hashes nothing, the clustering builds no cluster.  But only the sort
worker emits a cancellation log line (followed by the same
"Operation complete!" as a successful run); the duplicate-scan and face
workers terminate with the very same events and delivered (empty)
results as a successful run over work-free input, so no distinct
"Cancelled" terminal state is observable. -/
theorem claim_C9_cancel_amended :
    (∀ pil base mm sel exif files fs0, files ≠ [] →
      sort_worker (fun _ => true) pil base mm sel exif (.ok files) fs0 =
        ⟨[Ev.log ("Scanning " ++ base ++ "..."),
          Ev.log ("Found " ++ natRepr files.length ++ " files. Processing..."),
          Ev.log "Sorting cancelled.", Ev.prog 1, Ev.log "Operation complete!"],
         [], ensure_dirs fs0 base DEFAULT_FOLDERS⟩)
    ∧ (∀ io u t files0, dupFiles io files0 ≠ [] →
        duplicate_scan_worker (fun _ => true) io u t files0 =
          ⟨[Ev.log "Listing files...",
            Ev.log ("Scanning " ++ natRepr (dupFiles io files0).length ++
              " files for duplicates..."),
            Ev.log "Found 0 duplicate groups."], [], []⟩)
    ∧ (∀ (V : Type) (dist : V → V → ℚ) encsOf base files fs0,
        files.filter (fun f => decide (classifyFile f.sfx f.mime = "Photos")) ≠ [] →
        face_grouping_worker true (fun _ => true) dist encsOf base files fs0 =
          ⟨[Ev.log ("Analyzing faces in " ++
              natRepr (files.filter (fun f => decide (classifyFile f.sfx f.mime = "Photos"))).length
              ++ " photos..."),
            Ev.log "Created 0 face albums."], some [], [],
           mkdirP fs0 (base ++ "/Faces")⟩) := by
  refine ⟨?_, ?_, ?_⟩
  · intro pil base mm sel exif files fs0 hne
    have hlen : files.length ≠ 0 := fun h => hne (List.length_eq_zero.mp h)
    cases files with
    | nil => exact absurd rfl hne
    | cons f rest =>
      simp only [sort_worker]
      rw [if_neg hlen, sortLoop_stop_true]
      simp
  · intro io u t files0 hne
    have hlen : (dupFiles io files0).length ≠ 0 := fun h => hne (List.length_eq_zero.mp h)
    simp only [duplicate_scan_worker]
    rw [if_neg hlen, dupLoop_stop_true]
    have hzero : ("Found " ++ natRepr (0 : Nat) ++ " duplicate groups.")
        = "Found 0 duplicate groups." := rfl
    simp [hzero]
  · intro V dist encsOf base files fs0 hne
    simp only [face_grouping_worker]
    rw [if_neg (by decide : ¬ (true = false)), if_neg hne, faceLoop_stop_true]
    have hzero : ("Created " ++ natRepr (0 : Nat) ++ " face albums.")
        = "Created 0 face albums." := rfl
    simp [materialize, hzero]

/-! ## Files of unselected categories are redirected to Others (claim C10) -/

theorem sortStep_acts_ok (pil mm : Bool) (base : String) (sel : List String) (exif : Bool)
    (fs : List String) (f : FileRec) (hok : f.opOk = true) :
    ∃ d, (sortStep pil mm base sel exif fs f).2.1 =
      [⟨f.pathStr, sortTarget pil base sel exif f, d, mm⟩] := by
  cases mm <;> simp [sortStep, hok]

theorem sortLoop_acts_of_ok (pil mm : Bool) (base : String) (sel : List String)
    (exif : Bool) (total : Nat) :
    ∀ (l : List FileRec) (idx : Nat) (fs : List String) (f : FileRec),
      f ∈ l → f.opOk = true →
      ∃ a ∈ (sortLoop (fun _ => false) pil mm base sel exif total l idx fs).acts,
        a.src = f.pathStr ∧ a.dir = sortTarget pil base sel exif f ∧ a.moved = mm
  | [], idx, fs, f => by
    intro hf _
    cases hf
  | g :: rest, idx, fs, f => by
    intro hf hok
    simp only [sortLoop, Bool.false_eq_true, if_false]
    rcases List.mem_cons.mp hf with h | h
    · subst h
      obtain ⟨d, hd⟩ := sortStep_acts_ok pil mm base sel exif fs f hok
      refine ⟨⟨f.pathStr, sortTarget pil base sel exif f, d, mm⟩, ?_, rfl, rfl, rfl⟩
      rw [hd]
      simp
    · obtain ⟨a, ha, hprop⟩ := sortLoop_acts_of_ok pil mm base sel exif total rest (idx + 1)
        (sortStep pil mm base sel exif fs g).2.2 f h hok
      exact ⟨a, List.mem_append_right _ ha, hprop⟩

/-- C10: during a sort, a file whose detected category is not in the
caller's non-empty selection is reassigned to `Others` and still copied
or moved, with target directory `base/Others` (never the EXIF `year/month`
subfolders, which only apply to `Photos`). -/
theorem claim_C10_unselected_to_others (pil : Bool) (base : String) (mm : Bool)
    (sel : List String) (exif : Bool) (files : List FileRec) (fs0 : List String)
    (f : FileRec) (hf : f ∈ files) (hsel : sel ≠ [])
    (hnotin : classifyFile f.sfx f.mime ∉ sel) (hok : f.opOk = true) :
    ∃ a ∈ (sort_worker (fun _ => false) pil base mm sel exif (.ok files) fs0).acts,
      a.src = f.pathStr ∧ a.dir = base ++ "/" ++ "Others" ∧ a.moved = mm := by
  have hne : files ≠ [] := fun h => by
    rw [h] at hf
    cases hf
  have hlen : files.length ≠ 0 := fun h => hne (List.length_eq_zero.mp h)
  have htarget : sortTarget pil base sel exif f = base ++ "/" ++ "Others" := by
    have hgroup : (if sel ≠ [] ∧ classifyFile f.sfx f.mime ∉ sel
        then "Others" else classifyFile f.sfx f.mime) = "Others" := if_pos ⟨hsel, hnotin⟩
    simp only [sortTarget, hgroup]
    rw [if_neg (fun hcontra => absurd hcontra.1 (by decide))]
  simp only [sort_worker, if_neg hlen]
  obtain ⟨a, ha, h1, h2, h3⟩ := sortLoop_acts_of_ok pil mm base sel exif files.length
    files 1 (ensure_dirs fs0 base DEFAULT_FOLDERS) f hf hok
  exact ⟨a, ha, h1, htarget ▸ h2, h3⟩

theorem claim_C10_unselected_to_others_witness :
    ∃ a ∈ (sort_worker (fun _ => false) true "/b" false ["Photos"] false
      (.ok [sampleTxt]) []).acts,
      a.src = sampleTxt.pathStr ∧ a.dir = "/b" ++ "/" ++ "Others" ∧ a.moved = false :=
  claim_C10_unselected_to_others true "/b" false ["Photos"] false [sampleTxt] []
    sampleTxt (by decide) (by decide) (by decide) rfl

theorem claim_C9_cancel_amended_witness :
    duplicate_scan_worker (fun _ => true) false false 0 [sampleJpg, sampleJpg2] =
      ⟨[Ev.log "Listing files...",
        Ev.log ("Scanning " ++ natRepr (dupFiles false [sampleJpg, sampleJpg2]).length ++
          " files for duplicates..."),
        Ev.log "Found 0 duplicate groups."], [], []⟩ :=
  claim_C9_cancel_amended.2.1 false false 0 [sampleJpg, sampleJpg2] (by decide)

/-! ## Per-item failure handling (claim C8) -/

theorem countProg_append (a b : List Ev) : countProg (a ++ b) = countProg a + countProg b :=
  List.countP_append _ _ _

theorem countProg_cons_log (s : String) (evs : List Ev) :
    countProg (Ev.log s :: evs) = countProg evs := by
  simp [countProg, List.countP_cons, Ev.isProg]

theorem countProg_cons_prog (q : ℚ) (evs : List Ev) :
    countProg (Ev.prog q :: evs) = countProg evs + 1 := by
  simp [countProg, List.countP_cons, Ev.isProg]

theorem sortStep_countProg (pil mm : Bool) (base : String) (sel : List String) (exif : Bool)
    (fs : List String) (f : FileRec) :
    countProg (sortStep pil mm base sel exif fs f).1 = 0 := by
  obtain ⟨s, hs⟩ := sortStep_events pil mm base sel exif fs f
  rw [hs, countProg_cons_log]
  rfl

theorem sortLoop_countProg (pil mm : Bool) (base : String) (sel : List String)
    (exif : Bool) (total : Nat) :
    ∀ (l : List FileRec) (idx : Nat) (fs : List String),
      countProg (sortLoop (fun _ => false) pil mm base sel exif total l idx fs).events
        = l.length
  | [], idx, fs => rfl
  | f :: rest, idx, fs => by
    simp only [sortLoop, Bool.false_eq_true, if_false]
    rw [countProg_append, countProg_append, sortStep_countProg, countProg_cons_prog,
      sortLoop_countProg pil mm base sel exif total rest (idx + 1) _]
    simp only [countProg, List.countP_nil, List.length_cons]
    omega

theorem sortStep_events_err (pil mm : Bool) (base : String) (sel : List String)
    (exif : Bool) (fs : List String) (f : FileRec) (hbad : f.opOk = false) :
    (sortStep pil mm base sel exif fs f).1
      = [Ev.log ("Error " ++ f.name ++ ": " ++ f.errMsg)] := by
  simp [sortStep, hbad]

theorem sortLoop_err_logged (pil mm : Bool) (base : String) (sel : List String)
    (exif : Bool) (total : Nat) :
    ∀ (l : List FileRec) (idx : Nat) (fs : List String) (f : FileRec),
      f ∈ l → f.opOk = false →
      Ev.log ("Error " ++ f.name ++ ": " ++ f.errMsg) ∈
        (sortLoop (fun _ => false) pil mm base sel exif total l idx fs).events
  | [], idx, fs, f => by
    intro hf _
    cases hf
  | g :: rest, idx, fs, f => by
    intro hf hbad
    simp only [sortLoop, Bool.false_eq_true, if_false]
    rcases List.mem_cons.mp hf with h | h
    · subst h
      rw [sortStep_events_err pil mm base sel exif fs f hbad]
      simp
    · have := sortLoop_err_logged pil mm base sel exif total rest (idx + 1)
        (sortStep pil mm base sel exif fs g).2.2 f h hbad
      simp only [List.mem_append]
      exact Or.inr this

theorem dupLoop_all_prog (stop : Nat → Bool) (totalB : Nat) :
    ∀ (l : List (Nat × List FileRec)) (idx : Nat) (e : Ev),
      e ∈ (dupLoop stop totalB l idx).1 → e.isProg = true
  | [], idx, e => by
    intro he
    cases he
  | b :: rest, idx, e => by
    intro he
    simp only [dupLoop] at he
    rcases hstop : stop (idx - 1) with _ | _ <;> rw [hstop] at he
    · simp only [Bool.false_eq_true, if_false] at he
      by_cases hsmall : b.2.length < 2 <;> simp only [hsmall, if_true, if_false] at he <;>
        rcases List.mem_cons.mp he with h | h <;>
        first
          | (subst h; rfl)
          | exact dupLoop_all_prog stop totalB rest (idx + 1) e h
    · simp only [if_true] at he
      cases he

theorem dupLoop_countProg (totalB : Nat) :
    ∀ (l : List (Nat × List FileRec)) (idx : Nat),
      countProg (dupLoop (fun _ => false) totalB l idx).1 = l.length
  | [], idx => rfl
  | b :: rest, idx => by
    simp only [dupLoop, Bool.false_eq_true, if_false]
    by_cases hsmall : b.2.length < 2 <;>
      simp only [hsmall, if_true, if_false] <;>
      rw [countProg_cons_prog, dupLoop_countProg totalB rest (idx + 1)] <;>
      simp

/-- C8 counterexample: in a duplicate scan, a file whose `sha256` call
raises is silently dropped: the digest function is invoked on it (it is
in the hashed trace), the batch continues, but no log line whatsoever is
produced for the failure — the only logs are the three standard status
lines, contradicting "the failure is converted to a log line". -/
theorem claim_C8_item_failure_cex :
    (duplicate_scan_worker (fun _ => false) false false 0 [sampleBadHash, sampleJpg2]).hashed
      = [sampleBadHash, sampleJpg2]
    ∧ (duplicate_scan_worker (fun _ => false) false false 0
        [sampleBadHash, sampleJpg2]).events.filter Ev.isLog
      = [Ev.log "Listing files...", Ev.log "Scanning 2 files for duplicates...",
         Ev.log "Found 0 duplicate groups."] := by
  refine ⟨by decide, by decide⟩

/-- C8 (amended): per-item failures never abort a batch, and progress
still advances for failed items; but only the sort worker converts the
failure to a log line (`Error <name>: <message>`).  In the duplicate
scan, `stat` and `sha256` failures are swallowed by bare `except: pass`
handlers: the scan continues and reports one progress step per bucket
regardless, but its only log lines are the three standard status lines,
with no mention of the failed items. -/
theorem claim_C8_item_failure_amended :
    (∀ pil base mm sel exif files fs0 f, f ∈ files → f.opOk = false →
      Ev.log ("Error " ++ f.name ++ ": " ++ f.errMsg) ∈
        (sort_worker (fun _ => false) pil base mm sel exif (.ok files) fs0).events)
    ∧ (∀ pil base mm sel exif files fs0 f, f ∈ files → f.opOk = true →
        ∃ a ∈ (sort_worker (fun _ => false) pil base mm sel exif (.ok files) fs0).acts,
          a.src = f.pathStr)
    ∧ (∀ pil base mm sel exif files fs0, files ≠ [] →
        countProg (sort_worker (fun _ => false) pil base mm sel exif (.ok files) fs0).events
          = files.length + 1)
    ∧ (∀ io u t files0, dupFiles io files0 ≠ [] →
        ∃ n, (duplicate_scan_worker (fun _ => false) io u t files0).events.filter Ev.isLog
          = [Ev.log "Listing files...",
             Ev.log ("Scanning " ++ natRepr (dupFiles io files0).length ++
               " files for duplicates..."),
             Ev.log ("Found " ++ natRepr n ++ " duplicate groups.")])
    ∧ (∀ io u t files0, dupFiles io files0 ≠ [] →
        countProg (duplicate_scan_worker (fun _ => false) io u t files0).events
          = (sizeMapOf (dupFiles io files0)).length) := by
  refine ⟨?_, ?_, ?_, ?_, ?_⟩
  · intro pil base mm sel exif files fs0 f hf hbad
    have hne : files ≠ [] := fun h => by
      rw [h] at hf
      cases hf
    have hlen : files.length ≠ 0 := fun h => hne (List.length_eq_zero.mp h)
    simp only [sort_worker, if_neg hlen]
    have := sortLoop_err_logged pil mm base sel exif files.length files 1
      (ensure_dirs fs0 base DEFAULT_FOLDERS) f hf hbad
    exact List.mem_append_left _ (List.mem_cons_of_mem _ (List.mem_cons_of_mem _ this))
  · intro pil base mm sel exif files fs0 f hf hok
    have hne : files ≠ [] := fun h => by
      rw [h] at hf
      cases hf
    have hlen : files.length ≠ 0 := fun h => hne (List.length_eq_zero.mp h)
    simp only [sort_worker, if_neg hlen]
    obtain ⟨a, ha, h1, _, _⟩ := sortLoop_acts_of_ok pil mm base sel exif files.length
      files 1 (ensure_dirs fs0 base DEFAULT_FOLDERS) f hf hok
    exact ⟨a, ha, h1⟩
  · intro pil base mm sel exif files fs0 hne
    have hlen : files.length ≠ 0 := fun h => hne (List.length_eq_zero.mp h)
    simp only [sort_worker, if_neg hlen]
    rw [countProg_append, countProg_cons_log, countProg_cons_log,
      sortLoop_countProg pil mm base sel exif files.length files 1 _,
      countProg_cons_prog, countProg_cons_log]
    rfl
  · intro io u t files0 hne
    have hlen : (dupFiles io files0).length ≠ 0 := fun h => hne (List.length_eq_zero.mp h)
    refine ⟨(dupLoop (fun _ => false) (sizeMapOf (dupFiles io files0)).length
      (sizeMapOf (dupFiles io files0)) 1).2.1.length, ?_⟩
    simp only [duplicate_scan_worker, if_neg hlen]
    rw [List.filter_append]
    have hnil : (dupLoop (fun _ => false) (sizeMapOf (dupFiles io files0)).length
        (sizeMapOf (dupFiles io files0)) 1).1.filter Ev.isLog = [] := by
      rw [List.filter_eq_nil_iff]
      intro e he
      have := dupLoop_all_prog (fun _ => false) _ _ 1 e he
      cases e with
      | prog q => simp [Ev.isLog]
      | log s => simp [Ev.isProg] at this
    rw [List.filter_cons_of_pos (by rfl), List.filter_cons_of_pos (by rfl), hnil]
    rfl
  · intro io u t files0 hne
    have hlen : (dupFiles io files0).length ≠ 0 := fun h => hne (List.length_eq_zero.mp h)
    simp only [duplicate_scan_worker, if_neg hlen]
    rw [countProg_append, countProg_cons_log, countProg_cons_log,
      dupLoop_countProg, countProg_cons_log]
    rfl

theorem claim_C8_item_failure_amended_witness :
    Ev.log ("Error " ++ sampleBadCopy.name ++ ": " ++ sampleBadCopy.errMsg) ∈
      (sort_worker (fun _ => false) true "/b" false [] false
        (.ok [sampleJpg, sampleBadCopy]) []).events :=
  claim_C8_item_failure_amended.1 true "/b" false [] false [sampleJpg, sampleBadCopy] []
    sampleBadCopy (by decide) rfl

/-! ## Structure of the size and hash maps (claims C2, C5) -/

theorem setdefaultApp_keys {K : Type} [DecidableEq K] :
    ∀ (m : List (K × List FileRec)) (k : K) (f : FileRec),
      (setdefaultApp m k f).map Prod.fst =
        if k ∈ m.map Prod.fst then m.map Prod.fst else m.map Prod.fst ++ [k]
  | [], k, f => by simp [setdefaultApp]
  | kv :: rest, k, f => by
    by_cases h : kv.1 = k
    · subst h
      simp [setdefaultApp]
    · simp only [setdefaultApp, if_neg h, List.map_cons]
      rw [setdefaultApp_keys rest k f]
      by_cases hk : k ∈ rest.map Prod.fst
      · rw [if_pos hk, if_pos (by simp [hk])]
      · rw [if_neg hk, if_neg (by
          simp only [List.map_cons, List.mem_cons]
          rintro (hc | hc)
          · exact h hc.symm
          · exact hk hc)]
        simp

theorem setdefaultApp_mem {K : Type} [DecidableEq K] :
    ∀ (m : List (K × List FileRec)), (m.map Prod.fst).Nodup →
      ∀ (k : K) (f : FileRec) (kb : K × List FileRec), kb ∈ setdefaultApp m k f →
      (kb ∈ m ∧ kb.1 ≠ k) ∨ (∃ b, (k, b) ∈ m ∧ kb = (k, b ++ [f])) ∨
        (k ∉ m.map Prod.fst ∧ kb = (k, [f]))
  | [], _, k, f, kb => by
    intro hkb
    simp only [setdefaultApp, List.mem_singleton] at hkb
    exact Or.inr (Or.inr ⟨by simp, hkb⟩)
  | kv :: rest, hnd, k, f, kb => by
    intro hkb
    rw [List.map_cons, List.nodup_cons] at hnd
    by_cases h : kv.1 = k
    · subst h
      simp only [setdefaultApp, eq_self_iff_true, if_true, List.mem_cons] at hkb
      rcases hkb with hkb | hkb
      · exact Or.inr (Or.inl ⟨kv.2, List.mem_cons_self kv rest, hkb⟩)
      · refine Or.inl ⟨List.mem_cons_of_mem kv hkb, ?_⟩
        intro he
        exact hnd.1 (he ▸ List.mem_map_of_mem Prod.fst hkb)
    · simp only [setdefaultApp, if_neg h, List.mem_cons] at hkb
      rcases hkb with hkb | hkb
      · exact Or.inl ⟨by simp [hkb], by rw [hkb]; exact h⟩
      · rcases setdefaultApp_mem rest hnd.2 k f kb hkb with
          ⟨hm, hne⟩ | ⟨b, hb, heq⟩ | ⟨hfresh, heq⟩
        · exact Or.inl ⟨List.mem_cons_of_mem kv hm, hne⟩
        · exact Or.inr (Or.inl ⟨b, List.mem_cons_of_mem kv hb, heq⟩)
        · refine Or.inr (Or.inr ⟨?_, heq⟩)
          simp only [List.map_cons, List.mem_cons]
          rintro (hc | hc)
          · exact h hc.symm
          · exact hfresh hc

theorem groupByKey_aux {K : Type} [DecidableEq K] (key : FileRec → Option K) :
    ∀ (files : List FileRec) (m : List (K × List FileRec)) (pre : List FileRec),
      (m.map Prod.fst).Nodup →
      (∀ kb ∈ m, kb.2 = pre.filter (fun f => decide (key f = some kb.1))) →
      (∀ k, k ∉ m.map Prod.fst → pre.filter (fun f => decide (key f = some k)) = []) →
      (((files.foldl (groupStep key) m).map Prod.fst).Nodup
      ∧ (∀ kb ∈ files.foldl (groupStep key) m,
          kb.2 = (pre ++ files).filter (fun f => decide (key f = some kb.1)))
      ∧ (∀ k, k ∉ (files.foldl (groupStep key) m).map Prod.fst →
          (pre ++ files).filter (fun f => decide (key f = some k)) = []))
  | [], m, pre => by
    intro hnd hinv hfresh
    simp only [List.foldl_nil, List.append_nil]
    exact ⟨hnd, hinv, hfresh⟩
  | f :: files, m, pre => by
    intro hnd hinv hfresh
    have hstep : ∀ (m' : List (K × List FileRec)),
        (m'.map Prod.fst).Nodup →
        (∀ kb ∈ m', kb.2 = (pre ++ [f]).filter (fun f => decide (key f = some kb.1))) →
        (∀ k, k ∉ m'.map Prod.fst →
          (pre ++ [f]).filter (fun f => decide (key f = some k)) = []) →
        (((files.foldl (groupStep key) m').map Prod.fst).Nodup
        ∧ (∀ kb ∈ files.foldl (groupStep key) m',
            kb.2 = (pre ++ f :: files).filter (fun g => decide (key g = some kb.1)))
        ∧ (∀ k, k ∉ (files.foldl (groupStep key) m').map Prod.fst →
            (pre ++ f :: files).filter (fun g => decide (key g = some k)) = [])) := by
      intro m' h1 h2 h3
      have := groupByKey_aux key files m' (pre ++ [f]) h1 h2 h3
      rwa [List.append_assoc, List.singleton_append] at this
    simp only [List.foldl_cons]
    cases hkey : key f with
    | none =>
      rw [show groupStep key m f = m from by simp [groupStep, hkey]]
      refine hstep m hnd ?_ ?_
      · intro kb hkb
        rw [hinv kb hkb, List.filter_append]
        have : [f].filter (fun g => decide (key g = some kb.1)) = [] := by
          simp [hkey]
        rw [this, List.append_nil]
      · intro k hk
        rw [List.filter_append, hfresh k hk]
        simp [hkey]
    | some k =>
      rw [show groupStep key m f = setdefaultApp m k f from by simp [groupStep, hkey]]
      refine hstep (setdefaultApp m k f) ?_ ?_ ?_
      · rw [setdefaultApp_keys]
        by_cases hmem : k ∈ m.map Prod.fst
        · rw [if_pos hmem]
          exact hnd
        · rw [if_neg hmem]
          simp [List.nodup_append, hnd, hmem]
      · intro kb hkb
        rcases setdefaultApp_mem m hnd k f kb hkb with
          ⟨hm, hne⟩ | ⟨b, hb, heq⟩ | ⟨hfresh2, heq⟩
        · rw [hinv kb hm, List.filter_append]
          have : [f].filter (fun g => decide (key g = some kb.1)) = [] := by
            simp only [List.filter, hkey]
            rw [decide_eq_false]
            intro hc
            exact hne (Option.some.inj hc).symm
          rw [this, List.append_nil]
        · subst heq
          rw [List.filter_append]
          have h1 : b = pre.filter (fun g => decide (key g = some k)) := hinv (k, b) hb
          have h2 : [f].filter (fun g => decide (key g = some k)) = [f] := by
            simp [hkey]
          rw [← h1, h2]
        · subst heq
          rw [List.filter_append, hfresh k hfresh2]
          simp [hkey]
      · intro k2 hk2
        rw [setdefaultApp_keys] at hk2
        have hk2ne : k2 ≠ k ∧ k2 ∉ m.map Prod.fst := by
          by_cases hmem : k ∈ m.map Prod.fst
          · rw [if_pos hmem] at hk2
            exact ⟨fun he => hk2 (he ▸ hmem), hk2⟩
          · rw [if_neg hmem] at hk2
            simp only [List.mem_append, List.mem_singleton, not_or] at hk2
            exact ⟨hk2.2, hk2.1⟩
        rw [List.filter_append, hfresh k2 hk2ne.2]
        have : [f].filter (fun g => decide (key g = some k2)) = [] := by
          simp only [List.filter, hkey]
          rw [decide_eq_false]
          intro hc
          exact hk2ne.1 (Option.some.inj hc).symm
        rw [this]
        rfl

theorem groupByKey_filter {K : Type} [DecidableEq K] (key : FileRec → Option K)
    (files : List FileRec) :
    ∀ kb ∈ groupByKey key files, kb.2 = files.filter (fun f => decide (key f = some kb.1)) := by
  have := groupByKey_aux key files [] [] (by simp) (by simp) (by simp)
  intro kb hkb
  have h := this.2.1 kb hkb
  rwa [List.nil_append] at h

theorem groupByKey_keys_nodup {K : Type} [DecidableEq K] (key : FileRec → Option K)
    (files : List FileRec) :
    ((groupByKey key files).map Prod.fst).Nodup :=
  (groupByKey_aux key files [] [] (by simp) (by simp) (by simp)).1

theorem maxByMtime_first : ∀ (xs : List FileRec) (x : FileRec),
    (maxByMtime x xs = x ∧ ∀ y ∈ xs, y.mtime ≤ x.mtime)
    ∨ (∃ l₁ l₂, xs = l₁ ++ maxByMtime x xs :: l₂
        ∧ x.mtime < (maxByMtime x xs).mtime
        ∧ (∀ y ∈ l₁, y.mtime < (maxByMtime x xs).mtime)
        ∧ (∀ y ∈ l₂, y.mtime ≤ (maxByMtime x xs).mtime))
  | [], x => Or.inl ⟨rfl, by simp⟩
  | y :: xs, x => by
    have hstep : maxByMtime x (y :: xs)
        = maxByMtime (if x.mtime < y.mtime then y else x) xs := rfl
    by_cases hxy : x.mtime < y.mtime
    · rw [if_pos hxy] at hstep
      rcases maxByMtime_first xs y with ⟨hr, hall⟩ | ⟨l₁, l₂, heq, hlt, h1, h2⟩
      · refine Or.inr ⟨[], xs, ?_, ?_, by simp, ?_⟩
        · rw [hstep, hr]
          rfl
        · rw [hstep, hr]
          exact hxy
        · rw [hstep, hr]
          exact hall
      · refine Or.inr ⟨y :: l₁, l₂, ?_, ?_, ?_, ?_⟩
        · rw [hstep, List.cons_append, ← heq]
        · rw [hstep]
          exact hxy.trans hlt
        · rw [hstep]
          intro z hz
          rcases List.mem_cons.mp hz with hz | hz
          · rw [hz]
            exact hlt
          · exact h1 z hz
        · rw [hstep]
          exact h2
    · rw [if_neg hxy] at hstep
      rcases maxByMtime_first xs x with ⟨hr, hall⟩ | ⟨l₁, l₂, heq, hlt, h1, h2⟩
      · refine Or.inl ⟨by rw [hstep, hr], ?_⟩
        intro z hz
        rcases List.mem_cons.mp hz with hz | hz
        · rw [hz]
          omega
        · exact hall z hz
      · refine Or.inr ⟨y :: l₁, l₂, ?_, ?_, ?_, ?_⟩
        · rw [hstep, List.cons_append, ← heq]
        · rw [hstep]
          exact hlt
        · rw [hstep]
          intro z hz
          rcases List.mem_cons.mp hz with hz | hz
          · rw [hz]
            omega
          · exact h1 z hz
        · rw [hstep]
          exact h2

theorem maxByMtime_mem (xs : List FileRec) (x : FileRec) : maxByMtime x xs ∈ x :: xs := by
  rcases maxByMtime_first xs x with ⟨hr, _⟩ | ⟨l₁, l₂, heq, _, _, _⟩
  · rw [hr]
    exact List.mem_cons_self _ _
  · have hm := List.mem_append_right l₁ (List.mem_cons_self (maxByMtime x xs) l₂)
    rw [← heq] at hm
    exact List.mem_cons_of_mem _ hm

theorem maxByMtime_max (xs : List FileRec) (x : FileRec) :
    ∀ y ∈ x :: xs, y.mtime ≤ (maxByMtime x xs).mtime := by
  intro y hy
  rcases maxByMtime_first xs x with ⟨hr, hall⟩ | ⟨l₁, l₂, heq, hlt, h1, h2⟩
  · rw [hr]
    rcases List.mem_cons.mp hy with h | h
    · rw [h]
    · exact hall y h
  · rcases List.mem_cons.mp hy with h | h
    · rw [h]
      exact le_of_lt hlt
    · rw [heq] at h
      rcases List.mem_append.mp h with h | h
      · exact le_of_lt (h1 y h)
      · rcases List.mem_cons.mp h with h | h
        · rw [h]
        · exact h2 y h

theorem foldl_append_eq {α β : Type} (f : α → List β) :
    ∀ (l : List α) (acc : List β),
      l.foldl (fun a e => a ++ f e) acc = acc ++ (l.map f).join
  | [], acc => by simp
  | e :: l, acc => by
    simp only [List.foldl_cons, List.map_cons, List.join_cons]
    rw [foldl_append_eq f l (acc ++ f e), List.append_assoc]

theorem bucketGroups_mem (group : List FileRec) (g : DupGroup) :
    g ∈ bucketGroups group ↔ ∃ hb ∈ hashMapOf group, g ∈ entryGroups hb := by
  rw [bucketGroups, foldl_append_eq]
  simp only [List.nil_append, List.mem_join, List.mem_map]
  constructor
  · rintro ⟨l, ⟨hb, hhb, rfl⟩, hgl⟩
    exact ⟨hb, hhb, hgl⟩
  · rintro ⟨hb, hhb, hg⟩
    exact ⟨entryGroups hb, ⟨hb, hhb, rfl⟩, hg⟩

theorem entryGroups_mem_sub (hg : String × List FileRec) (g : DupGroup)
    (hmem : g ∈ entryGroups hg) :
    g.keep ∈ hg.2 ∧ (∀ x ∈ g.delete, x ∈ hg.2) ∧ 2 ≤ hg.2.length := by
  obtain ⟨h, lst⟩ := hg
  cases lst with
  | nil => cases hmem
  | cons x xs =>
    simp only [entryGroups] at hmem
    by_cases hlen : 0 < xs.length
    · rw [if_pos hlen, List.mem_singleton] at hmem
      subst hmem
      refine ⟨maxByMtime_mem xs x, ?_, by simp; omega⟩
      intro y hy
      have hy2 : y ∈ (x :: xs).filter
          (fun p => decide (p.pathStr ≠ (maxByMtime x xs).pathStr)) := hy
      exact List.mem_of_mem_filter hy2
    · rw [if_neg hlen] at hmem
      cases hmem

theorem bucketGroups_members (group : List FileRec) (g : DupGroup)
    (hg : g ∈ bucketGroups group) : ∀ x ∈ g.keep :: g.delete, x ∈ group := by
  rw [bucketGroups_mem] at hg
  obtain ⟨hb, hhb, hge⟩ := hg
  obtain ⟨hk, hd, _⟩ := entryGroups_mem_sub hb g hge
  have hsub : ∀ x ∈ hb.2, x ∈ group := by
    intro x hx
    rw [groupByKey_filter (fun f => f.hashRes) group hb hhb] at hx
    exact List.mem_of_mem_filter hx
  intro x hx
  rcases List.mem_cons.mp hx with h | h
  · exact hsub _ (h ▸ hk)
  · exact hsub _ (hd x h)

theorem dupLoop_result_mem (stop : Nat → Bool) (totalB : Nat) :
    ∀ (l : List (Nat × List FileRec)) (idx : Nat) (g : DupGroup),
      g ∈ (dupLoop stop totalB l idx).2.1 →
      ∃ b ∈ l, 2 ≤ b.2.length ∧ g ∈ bucketGroups b.2
  | [], idx, g => by
    intro h
    cases h
  | b :: rest, idx, g => by
    intro hg
    simp only [dupLoop] at hg
    cases hstop : stop (idx - 1) <;> rw [hstop] at hg
    · simp only [Bool.false_eq_true, if_false] at hg
      by_cases hsmall : b.2.length < 2 <;> simp only [hsmall, if_true, if_false] at hg
      · obtain ⟨b', hb', h2, h3⟩ := dupLoop_result_mem stop totalB rest (idx + 1) g hg
        exact ⟨b', List.mem_cons_of_mem b hb', h2, h3⟩
      · rcases List.mem_append.mp hg with h | h
        · exact ⟨b, List.mem_cons_self b rest, by omega, h⟩
        · obtain ⟨b', hb', h2, h3⟩ := dupLoop_result_mem stop totalB rest (idx + 1) g h
          exact ⟨b', List.mem_cons_of_mem b hb', h2, h3⟩
    · simp only [if_true] at hg
      cases hg

theorem dupLoop_hashed_mem (stop : Nat → Bool) (totalB : Nat) :
    ∀ (l : List (Nat × List FileRec)) (idx : Nat) (f : FileRec),
      f ∈ (dupLoop stop totalB l idx).2.2 →
      ∃ b ∈ l, 2 ≤ b.2.length ∧ f ∈ b.2
  | [], idx, f => by
    intro h
    cases h
  | b :: rest, idx, f => by
    intro hf
    simp only [dupLoop] at hf
    cases hstop : stop (idx - 1) <;> rw [hstop] at hf
    · simp only [Bool.false_eq_true, if_false] at hf
      by_cases hsmall : b.2.length < 2 <;> simp only [hsmall, if_true, if_false] at hf
      · obtain ⟨b', hb', h2, h3⟩ := dupLoop_hashed_mem stop totalB rest (idx + 1) f hf
        exact ⟨b', List.mem_cons_of_mem b hb', h2, h3⟩
      · rcases List.mem_append.mp hf with h | h
        · exact ⟨b, List.mem_cons_self b rest, by omega, h⟩
        · obtain ⟨b', hb', h2, h3⟩ := dupLoop_hashed_mem stop totalB rest (idx + 1) f h
          exact ⟨b', List.mem_cons_of_mem b hb', h2, h3⟩
    · simp only [if_true] at hf
      cases hf

theorem dupLoop_result_complete (totalB : Nat) :
    ∀ (l : List (Nat × List FileRec)) (idx : Nat) (b : Nat × List FileRec) (g : DupGroup),
      b ∈ l → 2 ≤ b.2.length → g ∈ bucketGroups b.2 →
      g ∈ (dupLoop (fun _ => false) totalB l idx).2.1
  | [], idx, b, g => by
    intro hb _ _
    cases hb
  | b' :: rest, idx, b, g => by
    intro hb hlen2 hg
    simp only [dupLoop, Bool.false_eq_true, if_false]
    rcases List.mem_cons.mp hb with he | he
    · subst he
      rw [if_neg (by omega : ¬ b.2.length < 2)]
      exact List.mem_append_left _ hg
    · have hrec := dupLoop_result_complete totalB rest (idx + 1) b g he hlen2 hg
      by_cases hsmall : b'.2.length < 2
      · rw [if_pos hsmall]
        exact hrec
      · rw [if_neg hsmall]
        exact List.mem_append_right _ hrec

theorem dupLoop_progress (totalB : Nat) :
    ∀ (l : List (Nat × List FileRec)) (idx i : Nat), idx ≤ i → i < idx + l.length →
      Ev.prog ((i : ℚ) / (totalB : ℚ)) ∈ (dupLoop (fun _ => false) totalB l idx).1
  | [], idx, i => by
    intro h1 h2
    simp only [List.length_nil] at h2
    omega
  | b :: rest, idx, i => by
    intro h1 h2
    simp only [dupLoop, Bool.false_eq_true, if_false]
    by_cases he : i = idx
    · subst he
      by_cases hsmall : b.2.length < 2
      · rw [if_pos hsmall]
        exact List.mem_cons_self _ _
      · rw [if_neg hsmall]
        exact List.mem_cons_self _ _
    · have hrec := dupLoop_progress totalB rest (idx + 1) i (by omega)
        (by simp only [List.length_cons] at h2; omega)
      by_cases hsmall : b.2.length < 2
      · rw [if_pos hsmall]
        exact List.mem_cons_of_mem _ hrec
      · rw [if_neg hsmall]
        exact List.mem_cons_of_mem _ hrec

/-- C5: the content digest is only ever invoked on members of size
buckets holding at least two files (never on a singleton bucket's file);
all members of any produced duplicate group share one byte size (files
of distinct sizes are never grouped); and one progress step is reported
for every size bucket, the skipped singleton buckets included. -/
theorem claim_C5_bucketing :
    (∀ stop io u t files0 f,
      f ∈ (duplicate_scan_worker stop io u t files0).hashed →
      ∃ sb ∈ sizeMapOf (dupFiles io files0), f ∈ sb.2 ∧ 2 ≤ sb.2.length)
    ∧ (∀ stop io u t files0 g x y,
        g ∈ (duplicate_scan_worker stop io u t files0).result →
        x ∈ g.keep :: g.delete → y ∈ g.keep :: g.delete → x.statSize = y.statSize)
    ∧ (∀ io u t files0 i, 1 ≤ i → i ≤ (sizeMapOf (dupFiles io files0)).length →
        Ev.prog ((i : ℚ) / ((sizeMapOf (dupFiles io files0)).length : ℚ)) ∈
          (duplicate_scan_worker (fun _ => false) io u t files0).events) := by
  refine ⟨?_, ?_, ?_⟩
  · intro stop io u t files0 f hf
    by_cases hlen : (dupFiles io files0).length = 0
    · simp only [duplicate_scan_worker, if_pos hlen] at hf
      cases hf
    · simp only [duplicate_scan_worker, if_neg hlen] at hf
      obtain ⟨b, hb, h2, h3⟩ := dupLoop_hashed_mem stop _ _ 1 f hf
      exact ⟨b, hb, h3, h2⟩
  · intro stop io u t files0 g x y hg hx hy
    by_cases hlen : (dupFiles io files0).length = 0
    · simp only [duplicate_scan_worker, if_pos hlen] at hg
      cases hg
    · simp only [duplicate_scan_worker, if_neg hlen] at hg
      obtain ⟨b, hb, h2, h3⟩ := dupLoop_result_mem stop _ _ 1 g hg
      have hmem := bucketGroups_members b.2 g h3
      have hchar := groupByKey_filter (fun f => f.statSize) (dupFiles io files0) b hb
      have hsize : ∀ z ∈ g.keep :: g.delete, z.statSize = some b.1 := by
        intro z hz
        have := hmem z hz
        rw [hchar] at this
        have := List.of_mem_filter this
        exact of_decide_eq_true this
      rw [hsize x hx, hsize y hy]
  · intro io u t files0 i h1 h2
    have hlen : (dupFiles io files0).length ≠ 0 := by
      intro hc
      rw [show dupFiles io files0 = [] from List.length_eq_zero.mp hc] at h2
      simp [sizeMapOf, groupByKey] at h2
      omega
    simp only [duplicate_scan_worker, if_neg hlen]
    refine List.mem_append_left _ (List.mem_cons_of_mem _ (List.mem_cons_of_mem _ ?_))
    exact dupLoop_progress _ _ 1 i h1 (by omega)

theorem claim_C5_bucketing_witness :
    Ev.prog ((1 : ℚ) / ((sizeMapOf (dupFiles false [sampleJpg])).length : ℚ)) ∈
      (duplicate_scan_worker (fun _ => false) false false 0 [sampleJpg]).events :=
  claim_C5_bucketing.2.2 false false 0 [sampleJpg] 1 le_rfl (by decide)

theorem nodup_paths_filter (l : List FileRec) (p : FileRec → Bool)
    (hnd : (l.map FileRec.pathStr).Nodup) : ((l.filter p).map FileRec.pathStr).Nodup :=
  hnd.sublist (List.Sublist.map FileRec.pathStr (List.filter_sublist l))

theorem filter_ne_path (l₁ l₂ : List FileRec) (keep : FileRec)
    (hnd : ((l₁ ++ keep :: l₂).map FileRec.pathStr).Nodup) :
    (l₁ ++ keep :: l₂).filter (fun p => decide (p.pathStr ≠ keep.pathStr)) = l₁ ++ l₂ := by
  rw [List.map_append, List.map_cons, List.nodup_append] at hnd
  have h1 : keep.pathStr ∉ l₁.map FileRec.pathStr :=
    fun hc => hnd.2.2 hc (List.mem_cons_self _ _)
  have h2 : keep.pathStr ∉ l₂.map FileRec.pathStr := (List.nodup_cons.mp hnd.2.1).1
  rw [List.filter_append]
  have hf1 : l₁.filter (fun p => decide (p.pathStr ≠ keep.pathStr)) = l₁ := by
    rw [List.filter_eq_self]
    intro a ha
    rw [decide_eq_true_eq]
    intro he
    exact h1 (he ▸ List.mem_map_of_mem FileRec.pathStr ha)
  have hf2 : (keep :: l₂).filter (fun p => decide (p.pathStr ≠ keep.pathStr)) = l₂ := by
    rw [List.filter_cons_of_neg (by simp)]
    rw [List.filter_eq_self]
    intro a ha
    rw [decide_eq_true_eq]
    intro he
    exact h2 (he ▸ List.mem_map_of_mem FileRec.pathStr ha)
  rw [hf1, hf2]

theorem hashMapOf_uniform_aux (h : String) :
    ∀ (l : List FileRec) (b0 : List FileRec), (∀ f ∈ l, f.hashRes = some h) →
      l.foldl (groupStep (fun f => f.hashRes)) [(h, b0)] = [(h, b0 ++ l)]
  | [], b0 => by
    intro _
    simp
  | f :: l, b0 => by
    intro hall
    have hf := hall f (List.mem_cons_self f l)
    simp only [List.foldl_cons]
    have hset : groupStep (fun f => f.hashRes) [(h, b0)] f = [(h, b0 ++ [f])] := by
      simp [groupStep, hf, setdefaultApp]
    rw [hset,
      hashMapOf_uniform_aux h l (b0 ++ [f]) (fun g hg => hall g (List.mem_cons_of_mem f hg))]
    simp

theorem hashMapOf_uniform (b : List FileRec) (h : String) (hne : b ≠ [])
    (hall : ∀ f ∈ b, f.hashRes = some h) : hashMapOf b = [(h, b)] := by
  cases b with
  | nil => exact absurd rfl hne
  | cons f l =>
    have hf := hall f (List.mem_cons_self f l)
    simp only [hashMapOf, groupByKey, List.foldl_cons]
    have hset : groupStep (fun f => f.hashRes) [] f = [(h, [f])] := by
      simp [groupStep, hf, setdefaultApp]
    rw [hset,
      hashMapOf_uniform_aux h l [f] (fun g hg => hall g (List.mem_cons_of_mem f hg))]
    rfl

theorem bucketGroups_uniform (b : List FileRec) (h : String)
    (hnd : (b.map FileRec.pathStr).Nodup) (hlen : 2 ≤ b.length)
    (hall : ∀ f ∈ b, f.hashRes = some h) :
    ∃ g, bucketGroups b = [g] ∧ g.reason = "exact"
      ∧ g.keep ∈ b ∧ (∀ y ∈ b, y.mtime ≤ g.keep.mtime)
      ∧ (∃ l₁ l₂, b = l₁ ++ g.keep :: l₂ ∧ (∀ y ∈ l₁, y.mtime < g.keep.mtime)
          ∧ g.delete = l₁ ++ l₂)
      ∧ (g.keep :: g.delete).Perm b := by
  cases b with
  | nil => simp at hlen
  | cons x xs =>
    have hxs : xs ≠ [] := by
      intro hc
      rw [hc] at hlen
      simp at hlen
    have hxslen : 0 < xs.length := by
      cases xs with
      | nil => exact absurd rfl hxs
      | cons _ _ => simp
    have hmap := hashMapOf_uniform (x :: xs) h (by simp) hall
    have hbg : bucketGroups (x :: xs) = entryGroups (h, x :: xs) := by
      rw [bucketGroups, hmap]
      simp [foldl_append_eq]
    set keep := maxByMtime x xs with hkeep
    have hentry : entryGroups (h, x :: xs)
        = [⟨keep, (x :: xs).filter (fun p => decide (p.pathStr ≠ keep.pathStr)), "exact"⟩] := by
      simp only [entryGroups, if_pos hxslen]
    have hkmem : keep ∈ x :: xs := maxByMtime_mem xs x
    obtain ⟨l₁, l₂, hsplit, hstrict⟩ : ∃ l₁ l₂, x :: xs = l₁ ++ keep :: l₂
        ∧ ∀ y ∈ l₁, y.mtime < keep.mtime := by
      rcases maxByMtime_first xs x with ⟨hr, _⟩ | ⟨l₁, l₂, heq, hlt2, h1, _⟩
      · refine ⟨[], xs, ?_, by simp⟩
        rw [hkeep, hr]
        rfl
      · refine ⟨x :: l₁, l₂, ?_, ?_⟩
        · rw [List.cons_append, ← heq]
        · intro y hy
          rcases List.mem_cons.mp hy with hy | hy
          · rw [hy]
            exact hlt2
          · exact h1 y hy
    have hnd2 := hnd
    rw [hsplit] at hnd2
    have hdel : (x :: xs).filter (fun p => decide (p.pathStr ≠ keep.pathStr)) = l₁ ++ l₂ := by
      rw [hsplit]
      exact filter_ne_path l₁ l₂ keep hnd2
    refine ⟨⟨keep, (x :: xs).filter (fun p => decide (p.pathStr ≠ keep.pathStr)), "exact"⟩,
      by rw [hbg, hentry], rfl, hkmem, maxByMtime_max xs x,
      ⟨l₁, l₂, hsplit, hstrict, hdel⟩, ?_⟩
    show (keep :: (x :: xs).filter (fun p => decide (p.pathStr ≠ keep.pathStr))).Perm (x :: xs)
    rw [hdel, hsplit]
    exact List.perm_middle.symm

/-- C2: every produced `DuplicateGroup` has at least two members with
`keep` among them; and for a size bucket of `k ≥ 2` files of identical
content (equal digests), the completed scan delivers exactly one group
whose members are exactly those `k` files, whose `keep` has the maximal
modification time, with ties broken in favour of the first-encountered
file (everything before `keep` in bucket order is strictly older). -/
theorem claim_C2_duplicate_groups :
    (∀ stop io u t files0 g,
        ((dupFiles io files0).map FileRec.pathStr).Nodup →
        g ∈ (duplicate_scan_worker stop io u t files0).result →
        g.keep ∈ g.keep :: g.delete ∧ g.delete ≠ [])
    ∧ (∀ io u t files0 s b h,
        ((dupFiles io files0).map FileRec.pathStr).Nodup →
        (s, b) ∈ sizeMapOf (dupFiles io files0) → 2 ≤ b.length →
        (∀ f ∈ b, f.hashRes = some h) →
        ∃ g, g ∈ (duplicate_scan_worker (fun _ => false) io u t files0).result
          ∧ (g.keep :: g.delete).Perm b
          ∧ g.keep ∈ b ∧ (∀ y ∈ b, y.mtime ≤ g.keep.mtime)
          ∧ (∃ l₁ l₂, b = l₁ ++ g.keep :: l₂ ∧ ∀ y ∈ l₁, y.mtime < g.keep.mtime)
          ∧ (∀ g2, g2 ∈ (duplicate_scan_worker (fun _ => false) io u t files0).result →
              (g2.keep :: g2.delete).Perm b → g2 = g)) := by
  constructor
  · intro stop io u t files0 g hnd hg
    refine ⟨List.mem_cons_self _ _, ?_⟩
    by_cases hlen : (dupFiles io files0).length = 0
    · simp only [duplicate_scan_worker, if_pos hlen] at hg
      cases hg
    · simp only [duplicate_scan_worker, if_neg hlen] at hg
      obtain ⟨b', hb', hlen2, hbg⟩ := dupLoop_result_mem stop _ _ 1 g hg
      rw [bucketGroups_mem] at hbg
      obtain ⟨hb, hhb, hge⟩ := hbg
      obtain ⟨hh, lst⟩ := hb
      cases lst with
      | nil => cases hge
      | cons x xs =>
        simp only [entryGroups] at hge
        by_cases hxs : 0 < xs.length
        · rw [if_pos hxs, List.mem_singleton] at hge
          have hchar2 : b'.2 = (dupFiles io files0).filter
              (fun f => decide (f.statSize = some b'.1)) :=
            groupByKey_filter (fun f => f.statSize) (dupFiles io files0) b' hb'
          have hnd1 : ((b'.2).map FileRec.pathStr).Nodup := by
            rw [hchar2]
            exact nodup_paths_filter _ _ hnd
          have hchar : (x :: xs) = (b'.2).filter (fun f => decide (f.hashRes = some hh)) :=
            groupByKey_filter (fun f => f.hashRes) (b'.2) (hh, x :: xs) hhb
          have hnd2 : ((x :: xs).map FileRec.pathStr).Nodup := by
            rw [hchar]
            exact nodup_paths_filter _ _ hnd1
          subst hge
          set keep := maxByMtime x xs with hkeep
          have hkmem : keep ∈ x :: xs := maxByMtime_mem xs x
          obtain ⟨l₁, l₂, hsplit⟩ := List.append_of_mem hkmem
          have hnd3 := hnd2
          rw [hsplit] at hnd3
          have hdel := filter_ne_path l₁ l₂ keep hnd3
          show ((x :: xs).filter (fun p => decide (p.pathStr ≠ keep.pathStr))) ≠ []
          rw [hsplit, hdel]
          intro hc
          have hl := congrArg List.length hsplit
          have hc2 := congrArg List.length hc
          simp only [List.length_cons, List.length_append, List.length_nil] at hl hc2
          omega
        · rw [if_neg hxs] at hge
          cases hge
  · intro io u t files0 s b h hnd hsb hlen2 hall
    have hchar : b = (dupFiles io files0).filter (fun f => decide (f.statSize = some s)) :=
      groupByKey_filter (fun f => f.statSize) (dupFiles io files0) (s, b) hsb
    have hndb : (b.map FileRec.pathStr).Nodup := by
      rw [hchar]
      exact nodup_paths_filter _ _ hnd
    obtain ⟨g, hbg, hreason, hkmem, hkmax, hsplit, hperm⟩ :=
      bucketGroups_uniform b h hndb hlen2 hall
    have hlen0 : (dupFiles io files0).length ≠ 0 := by
      intro hc
      have hfe : dupFiles io files0 = [] := List.length_eq_zero.mp hc
      rw [hfe] at hchar
      simp only [List.filter_nil] at hchar
      rw [hchar] at hlen2
      simp at hlen2
    have hginrun : g ∈ (duplicate_scan_worker (fun _ => false) io u t files0).result := by
      simp only [duplicate_scan_worker, if_neg hlen0]
      exact dupLoop_result_complete _ _ 1 (s, b) g hsb hlen2
        (by rw [show bucketGroups (s, b).2 = [g] from hbg]; exact List.mem_singleton.mpr rfl)
    obtain ⟨l₁, l₂, he, hstrict, _⟩ := hsplit
    refine ⟨g, hginrun, hperm, hkmem, hkmax, ⟨l₁, l₂, he, hstrict⟩, ?_⟩
    intro g2 hg2 hperm2
    simp only [duplicate_scan_worker, if_neg hlen0] at hg2
    obtain ⟨b', hb', hlen2', hbg'⟩ := dupLoop_result_mem _ _ _ 1 g2 hg2
    have hmem2 := bucketGroups_members b'.2 g2 hbg'
    have hchar' : b'.2 = (dupFiles io files0).filter
        (fun f => decide (f.statSize = some b'.1)) :=
      groupByKey_filter (fun f => f.statSize) (dupFiles io files0) b' hb'
    have hkeep_in_b : g2.keep ∈ b := hperm2.subset (List.mem_cons_self _ _)
    have hks : g2.keep.statSize = some s := by
      have hx := hkeep_in_b
      rw [hchar] at hx
      have hp := List.of_mem_filter hx
      exact of_decide_eq_true hp
    have hks' : g2.keep.statSize = some b'.1 := by
      have hx := hmem2 g2.keep (List.mem_cons_self _ _)
      rw [hchar'] at hx
      have hp := List.of_mem_filter hx
      exact of_decide_eq_true hp
    have hseq : b'.1 = s := by
      rw [hks] at hks'
      exact (Option.some.inj hks').symm
    have hbeq : b'.2 = b := by
      rw [hchar', hseq, ← hchar]
    have hgb : g2 ∈ bucketGroups b := by
      rw [← hbeq]
      exact hbg'
    rw [hbg] at hgb
    exact List.mem_singleton.mp hgb

theorem claim_C2_duplicate_groups_witness :
    ∃ g, g ∈ (duplicate_scan_worker (fun _ => false) false false 0
        [sampleJpg, sampleJpg2, sampleTxt]).result
      ∧ (g.keep :: g.delete).Perm [sampleJpg, sampleJpg2]
      ∧ g.keep ∈ [sampleJpg, sampleJpg2]
      ∧ (∀ y ∈ [sampleJpg, sampleJpg2], y.mtime ≤ g.keep.mtime)
      ∧ (∃ l₁ l₂, [sampleJpg, sampleJpg2] = l₁ ++ g.keep :: l₂
          ∧ ∀ y ∈ l₁, y.mtime < g.keep.mtime)
      ∧ (∀ g2, g2 ∈ (duplicate_scan_worker (fun _ => false) false false 0
            [sampleJpg, sampleJpg2, sampleTxt]).result →
          (g2.keep :: g2.delete).Perm [sampleJpg, sampleJpg2] → g2 = g) :=
  claim_C2_duplicate_groups.2 false false 0 [sampleJpg, sampleJpg2, sampleTxt] 5
    [sampleJpg, sampleJpg2] "h1" (by decide) (by decide) (by decide) (by decide)

/-! ## Greedy incremental face clustering (claim C6) -/

theorem insertEnc_no_match {V : Type} (dist : V → V → ℚ) (img : FileRec) (v : V) :
    ∀ (clusters : List (Cluster V)), (∀ c ∈ clusters, minDistLt dist c v = false) →
      insertEnc dist img v clusters = clusters ++ [⟨[v], [img]⟩]
  | [], _ => rfl
  | c :: rest, hall => by
    simp only [insertEnc]
    rw [hall c (List.mem_cons_self c rest)]
    simp only [Bool.false_eq_true, if_false, List.cons_append]
    rw [insertEnc_no_match dist img v rest
      (fun c2 hc2 => hall c2 (List.mem_cons_of_mem c hc2))]

theorem insertEnc_first_match {V : Type} (dist : V → V → ℚ) (img : FileRec) (v : V) :
    ∀ (l₁ : List (Cluster V)) (c : Cluster V) (l₂ : List (Cluster V)),
      (∀ c2 ∈ l₁, minDistLt dist c2 v = false) → minDistLt dist c v = true →
      insertEnc dist img v (l₁ ++ c :: l₂)
        = l₁ ++ ⟨c.encodings ++ [v], addImg c.images img⟩ :: l₂
  | [], c, l₂, _, hmatch => by
    simp only [List.nil_append, insertEnc]
    rw [hmatch]
    simp
  | c2 :: l₁, c, l₂, hall, hmatch => by
    simp only [List.cons_append, insertEnc]
    rw [hall c2 (List.mem_cons_self c2 l₁)]
    simp only [Bool.false_eq_true, if_false]
    show c2 :: insertEnc dist img v (l₁ ++ c :: l₂)
      = c2 :: (l₁ ++ ⟨c.encodings ++ [v], addImg c.images img⟩ :: l₂)
    rw [insertEnc_first_match dist img v l₁ c l₂
      (fun c3 hc3 => hall c3 (List.mem_cons_of_mem c2 hc3)) hmatch]

theorem insertEnc_length {V : Type} (dist : V → V → ℚ) (img : FileRec) (v : V) :
    ∀ (clusters : List (Cluster V)),
      (insertEnc dist img v clusters).length = clusters.length
      ∨ (insertEnc dist img v clusters).length = clusters.length + 1
  | [] => Or.inr rfl
  | c :: rest => by
    simp only [insertEnc]
    by_cases hm : minDistLt dist c v = true
    · rw [if_pos hm]
      exact Or.inl rfl
    · rw [if_neg hm]
      simp only [List.length_cons]
      rcases insertEnc_length dist img v rest with h | h
      · exact Or.inl (by rw [h])
      · exact Or.inr (by rw [h])

theorem insertEnc_pointwise {V : Type} (dist : V → V → ℚ) (img : FileRec) (v : V) :
    ∀ (clusters : List (Cluster V)) (i : Nat), i < clusters.length →
      ∃ c0 c1, clusters[i]? = some c0 ∧ (insertEnc dist img v clusters)[i]? = some c1
        ∧ (c1 = c0 ∨ (c1.encodings = c0.encodings ++ [v] ∧ c1.images = addImg c0.images img))
  | [], i => by
    intro hi
    simp at hi
  | c :: rest, i => by
    intro hi
    simp only [insertEnc]
    by_cases hm : minDistLt dist c v = true
    · rw [if_pos hm]
      cases i with
      | zero =>
        exact ⟨c, ⟨c.encodings ++ [v], addImg c.images img⟩, by simp, by simp,
          Or.inr ⟨rfl, rfl⟩⟩
      | succ j =>
        have hj : j < rest.length := by
          simp only [List.length_cons] at hi
          omega
        refine ⟨rest[j], rest[j], ?_, ?_, Or.inl rfl⟩
        · simp [List.getElem?_cons_succ, List.getElem?_eq_getElem hj]
        · simp [List.getElem?_cons_succ, List.getElem?_eq_getElem hj]
    · rw [if_neg hm]
      cases i with
      | zero => exact ⟨c, c, by simp, by simp, Or.inl rfl⟩
      | succ j =>
        have hj : j < rest.length := by
          simp only [List.length_cons] at hi
          omega
        obtain ⟨c0, c1, h0, h1, hd⟩ := insertEnc_pointwise dist img v rest j hj
        exact ⟨c0, c1, by simp [List.getElem?_cons_succ, h0],
          by simp [List.getElem?_cons_succ, h1], hd⟩

theorem insertEnc_nonempty {V : Type} (dist : V → V → ℚ) (img : FileRec) (v : V) :
    ∀ (clusters : List (Cluster V)),
      (∀ c ∈ clusters, c.encodings ≠ [] ∧ c.images ≠ []) →
      ∀ c ∈ insertEnc dist img v clusters, c.encodings ≠ [] ∧ c.images ≠ []
  | [], _ => by
    intro c hc
    rw [List.mem_singleton.mp hc]
    exact ⟨by simp, by simp⟩
  | c0 :: rest, hall => by
    intro c hc
    simp only [insertEnc] at hc
    by_cases hm : minDistLt dist c0 v = true
    · rw [if_pos hm] at hc
      rcases List.mem_cons.mp hc with h | h
      · subst h
        refine ⟨by simp, ?_⟩
        simp only [addImg]
        by_cases hmem : c0.images.any (fun q => decide (q.pathStr = img.pathStr)) = true
        · rw [if_pos hmem]
          exact (hall c0 (List.mem_cons_self c0 rest)).2
        · rw [if_neg hmem]
          simp
      · exact hall c (List.mem_cons_of_mem c0 h)
    · rw [if_neg hm] at hc
      rcases List.mem_cons.mp hc with h | h
      · subst h
        exact hall c (List.mem_cons_self c rest)
      · exact insertEnc_nonempty dist img v rest
          (fun c2 hc2 => hall c2 (List.mem_cons_of_mem c0 hc2)) c h

theorem processImage_nonempty {V : Type} (dist : V → V → ℚ) (img : FileRec) :
    ∀ (encs : List V) (clusters : List (Cluster V)),
      (∀ c ∈ clusters, c.encodings ≠ [] ∧ c.images ≠ []) →
      ∀ c ∈ processImage dist encs img clusters, c.encodings ≠ [] ∧ c.images ≠ []
  | [], clusters, hall => hall
  | v :: encs, clusters, hall =>
    processImage_nonempty dist img encs (insertEnc dist img v clusters)
      (insertEnc_nonempty dist img v clusters hall)

theorem faceLoop_nonempty {V : Type} (stop : Nat → Bool) (dist : V → V → ℚ)
    (encsOf : FileRec → List V) (total : Nat) :
    ∀ (l : List FileRec) (idx : Nat) (cs : List (Cluster V)),
      (∀ c ∈ cs, c.encodings ≠ [] ∧ c.images ≠ []) →
      ∀ c ∈ (faceLoop stop dist encsOf total l idx cs).2,
        c.encodings ≠ [] ∧ c.images ≠ []
  | [], idx, cs, hall => hall
  | p :: rest, idx, cs, hall => by
    intro c hc
    simp only [faceLoop] at hc
    by_cases hstop : stop idx = true
    · rw [if_pos hstop] at hc
      exact hall c hc
    · rw [if_neg hstop] at hc
      exact faceLoop_nonempty stop dist encsOf total rest (idx + 1) _
        (processImage_nonempty dist p (encsOf p) cs hall) c hc

/-- C6: the clustering engine adds an extracted vector to the first
existing cluster (in creation order) whose minimum distance to it is
below the 0.6 threshold, touching no other cluster and scanning no
further; when no cluster matches, a fresh singleton cluster is appended.
Consequently every cluster of a run is nonempty (in vectors and images),
clusters are never merged or removed (each input cluster survives at its
position, at most extended by the one vector), and one image with two
mutually distant face vectors ends up in two distinct clusters. -/
theorem claim_C6_face_clustering :
    (∀ (V : Type) (dist : V → V → ℚ) (img : FileRec) (v : V)
        (clusters : List (Cluster V)),
      ((∀ c ∈ clusters, minDistLt dist c v = false) →
        insertEnc dist img v clusters = clusters ++ [⟨[v], [img]⟩])
      ∧ (∀ l₁ c l₂, clusters = l₁ ++ c :: l₂ →
          (∀ c2 ∈ l₁, minDistLt dist c2 v = false) → minDistLt dist c v = true →
          insertEnc dist img v clusters
            = l₁ ++ ⟨c.encodings ++ [v], addImg c.images img⟩ :: l₂)
      ∧ ((insertEnc dist img v clusters).length = clusters.length
          ∨ (insertEnc dist img v clusters).length = clusters.length + 1)
      ∧ (∀ i, i < clusters.length →
          ∃ c0 c1, clusters[i]? = some c0 ∧ (insertEnc dist img v clusters)[i]? = some c1
            ∧ (c1 = c0 ∨ (c1.encodings = c0.encodings ++ [v]
                ∧ c1.images = addImg c0.images img))))
    ∧ (∀ (V : Type) (stop : Nat → Bool) (dist : V → V → ℚ)
        (encsOf : FileRec → List V) (base : String) (files : List FileRec)
        (fs0 : List String),
        ∀ c ∈ (face_grouping_worker true stop dist encsOf base files fs0).clusters,
          c.encodings ≠ [] ∧ c.images ≠ [])
    ∧ (∀ img : FileRec,
        (processImage (fun a b : ℚ => |a - b|) [0, 10] img []).length = 2
        ∧ ∀ c ∈ processImage (fun a b : ℚ => |a - b|) [0, 10] img [], img ∈ c.images) := by
  refine ⟨?_, ?_, ?_⟩
  · intro V dist img v clusters
    refine ⟨insertEnc_no_match dist img v clusters, ?_,
      insertEnc_length dist img v clusters, insertEnc_pointwise dist img v clusters⟩
    intro l₁ c l₂ heq hall hmatch
    rw [heq]
    exact insertEnc_first_match dist img v l₁ c l₂ hall hmatch
  · intro V stop dist encsOf base files fs0 c hc
    simp only [face_grouping_worker] at hc
    rw [if_neg (by decide : ¬ (true = false))] at hc
    by_cases hempty : files.filter (fun f => decide (classifyFile f.sfx f.mime = "Photos")) = []
    · rw [if_pos hempty] at hc
      cases hc
    · rw [if_neg hempty] at hc
      exact faceLoop_nonempty stop dist encsOf _ _ 0 [] (by simp) c hc
  · intro img
    have hmatch : minDistLt (fun a b : ℚ => |a - b|) ⟨[0], [img]⟩ (10 : ℚ) = false := by
      simp only [minDistLt, List.map_cons, List.map_nil, pyMin, List.foldl_nil]
      rw [decide_eq_false]
      norm_num
    have hstep : processImage (fun a b : ℚ => |a - b|) [0, 10] img []
        = [⟨[0], [img]⟩, ⟨[10], [img]⟩] := by
      simp only [processImage, List.foldl_cons, List.foldl_nil, insertEnc]
      rw [hmatch]
      simp [insertEnc]
    rw [hstep]
    refine ⟨rfl, ?_⟩
    intro c hc
    rcases List.mem_cons.mp hc with h | h
    · rw [h]
      simp
    · rw [List.mem_singleton.mp h]
      simp

theorem claim_C6_face_clustering_witness :
    insertEnc (fun _ _ : ℚ => (1 : ℚ)) sampleJpg (0 : ℚ) []
      = [] ++ [⟨[(0 : ℚ)], [sampleJpg]⟩] :=
  (claim_C6_face_clustering.1 ℚ (fun _ _ => 1) sampleJpg 0 []).1
    (fun c hc => absurd hc (List.not_mem_nil c))
